import Mathlib

/-!
Verification of the crust interpreter (src/src/main.rs): a lexer,
a recursive-descent parser and a tree-walking evaluator for a small
parenthesized-prefix arithmetic language with `+`, `-`, `*`, `/` and
`define`.

The Rust source is shallowly embedded below.  Machine integers (u64)
are modelled as `Nat` with explicit reduction modulo 2^64 where the
source wraps.  Rust panics are modelled as a `fatal` result.  The
evaluator of the source can recurse through environment lookups without
bound, so it is embedded with a fuel parameter counting recursion
depth; `timeout` marks fuel exhaustion, and genuine divergence of the
source corresponds to `timeout` at every fuel.  The parser of the
source always terminates; it is embedded with a fuel parameter as
well, together with lemmas showing that the canonical fuel
(`tokens.length + 1`) is always enough, so that `.out` never escapes
the wrappers.  The lexer of the source advances a cursor once per
character but slices by bytes, so on words containing multi-byte
characters it can panic on a char-boundary violation or truncate a
run; the byte-faithful embedding is `separateB`/`lexB` (with `none`
as the panic), and the simpler character-level `separate`/`lexL` is
proved to agree with it on single-byte input.
-/

/-- Modulus of unsigned 64-bit arithmetic: 2^64. -/
def W : Nat := 18446744073709551616

theorem W_eq : W = 2 ^ 64 := by norm_num [W]

theorem W_pos : 0 < W := by norm_num [W]

/-- Wrapping u64 addition (`acc + a` on u64 in the source, release semantics). -/
def wadd (a b : Nat) : Nat := (a + b) % W

/-- Wrapping u64 subtraction (`acc - a` on u64 in the source, release semantics). -/
def wsub (a b : Nat) : Nat := (a % W + (W - b % W)) % W

/-- Wrapping u64 multiplication (`acc * a` on u64 in the source, release semantics). -/
def wmul (a b : Nat) : Nat := (a * b) % W

/-- Tokens, from `enum Token` in src/src/main.rs (lines 21-27).  The
borrowed `&str` payload of `Symbol` is modelled as an owned `String`. -/
inductive Token where
  | leftParen : Token
  | rightParen : Token
  | number : Nat → Token
  | symbol : String → Token
deriving DecidableEq

/-- Whitespace, as used by `str::trim` and `str::split_whitespace` in
`lex` (src line 75): the Unicode White_Space property that
`char::is_whitespace` tests, i.e. the ASCII whitespace characters
U+0009..U+000D (tab, LF, VT, FF, CR) and U+0020, together with
U+0085, U+00A0, U+1680, U+2000..U+200A, U+2028, U+2029, U+202F,
U+205F and U+3000. -/
def isWs (c : Char) : Bool :=
  (9 ≤ c.toNat && c.toNat ≤ 13) || c.toNat = 32 || c.toNat = 0x85 || c.toNat = 0xA0 ||
  c.toNat = 0x1680 || (0x2000 ≤ c.toNat && c.toNat ≤ 0x200A) ||
  c.toNat = 0x2028 || c.toNat = 0x2029 || c.toNat = 0x202F || c.toNat = 0x205F ||
  c.toNat = 0x3000

/-- The two separator characters `separate` is called with (line 75). -/
def isParen (c : Char) : Bool := c = '(' || c = ')'

/-- Accumulating worker for whitespace splitting; `acc` is the pending
word reversed.  Models `str::split_whitespace` (empty words skipped). -/
def splitWsAux : List Char → List Char → List (List Char)
  | acc, [] => if acc.isEmpty then [] else [acc.reverse]
  | acc, c :: cs =>
    if isWs c then (if acc.isEmpty then [] else [acc.reverse]) ++ splitWsAux [] cs
    else splitWsAux (c :: acc) cs

/-- Single-byte specialization of the worker of `separate`: the pending
run (`acc`, reversed) is flushed whole.  This is the behaviour of the
source worker only when the run consists of single-byte characters;
`sepAuxB` below is the byte-faithful version, and `sepAuxB_ascii`
proves the two agree on such runs. -/
def sepAux : List Char → List Char → List (List Char)
  | acc, [] => if acc.isEmpty then [] else [acc.reverse]
  | acc, c :: cs =>
    if isParen c then
      (if acc.isEmpty then [] else [acc.reverse]) ++ [c] :: sepAux [] cs
    else sepAux (c :: acc) cs

/-- Single-byte specialization of `separate(s, "()")`; the byte-faithful
version is `separateB`. -/
def separate (w : List Char) : List (List Char) := sepAux [] w

/-- Characters of a word that lie within its first `n` bytes of UTF-8;
`none` when `n` falls strictly inside a character, which is the
char-boundary panic of a Rust byte slice `&s[..n]`. -/
def takeBytes : Nat → List Char → Option (List Char)
  | 0, _ => some []
  | _+1, [] => none
  | n, c :: cs =>
    if c.utf8Size ≤ n then
      match takeBytes (n - c.utf8Size) cs with
      | some r => some (c :: r)
      | none => none
    else none

/-- The flush `v.push(&s[from..to])` of `separate` (src lines 50-52 and
60-62): the cursor `to` is advanced once per character but used as a
byte index, so `to - from` equals the number of characters of the
pending run while the slice takes that many bytes.  A run of
single-byte characters is flushed whole; a run containing multi-byte
characters is silently truncated to its first `length` bytes, or
panics (`none`) when that byte count is not a character boundary.
`acc` is the pending run reversed. -/
def flushRun (acc : List Char) : Option (List Char) :=
  takeBytes acc.length acc.reverse

/-- Worker for the source function `separate` (src lines 43-64) with
the byte-position bookkeeping of the source: on a separator the pending
run is flushed through `flushRun` (if non-empty) and the separator
becomes its own run; at the end the pending run is flushed; `none`
propagates the char-boundary panic. -/
def sepAuxB : List Char → List Char → Option (List (List Char))
  | acc, [] =>
    if acc.isEmpty then some []
    else
      match flushRun acc with
      | some r => some [r]
      | none => none
  | acc, c :: cs =>
    if isParen c then
      if acc.isEmpty then
        match sepAuxB [] cs with
        | some v => some ([c] :: v)
        | none => none
      else
        match flushRun acc with
        | some r =>
          match sepAuxB [] cs with
          | some v => some (r :: [c] :: v)
          | none => none
        | none => none
    else sepAuxB (c :: acc) cs

/-- The source function `separate(s, "()")` (src lines 43-64), byte
faithful: `none` is the panic of a byte slice that does not end on a
character boundary, possible exactly when the word mixes multi-byte
characters into a run. -/
def separateB (w : List Char) : Option (List (List Char)) := sepAuxB [] w

/-- Decimal digit test of `u64::from_str`: the ASCII digits 0-9. -/
def isDigitChar (c : Char) : Bool := 48 ≤ c.toNat && c.toNat ≤ 57

/-- Numeric value of a decimal digit character. -/
def digitVal (c : Char) : Nat := c.toNat - 48

/-- Decimal reading of a digit run, most significant first. -/
def natOfDigits (ds : List Char) : Nat := ds.foldl (fun a c => a * 10 + digitVal c) 0

/-- Reading of the digit part of a u64 literal: one or more decimal
digits whose value is below 2^64. -/
def parseU64Digits (ds : List Char) : Option Nat :=
  if ds.isEmpty then none
  else if ds.all isDigitChar then
    if natOfDigits ds < W then some (natOfDigits ds) else none
  else none

/-- The parsing done by `u64::from_str` (src line 79): an optional
leading `+`, then one or more ASCII decimal digits, value below 2^64;
anything else is an error (`none`). -/
def parseU64 (cs : List Char) : Option Nat :=
  parseU64Digits (match cs with
    | c :: rest => if c = '+' then rest else cs
    | [] => cs)

/-- Classification of one run into a token (src lines 76-83). -/
def classify (w : List Char) : Token :=
  if w = ['('] then .leftParen
  else if w = [')'] then .rightParen
  else match parseU64 w with
    | some n => .number n
    | none => .symbol ⟨w⟩

/-- Concatenation of the single-byte `separate` over the
whitespace-split words. -/
def sepWords : List (List Char) → List (List Char)
  | [] => []
  | w :: ws => separate w ++ sepWords ws

/-- Single-byte specialization of `lex` (src lines 74-85) on a
character list: the behaviour of the source on inputs whose characters
are all single-byte; `lexB` below is the byte-faithful embedding and
`lexB_ascii` proves the two agree on such inputs. -/
def lexL (cs : List Char) : List Token := (sepWords (splitWsAux [] cs)).map classify

/-- Single-byte specialization of `lex` on a string. -/
def lexS (s : String) : List Token := lexL s.data

/-- Concatenation of the byte-faithful `separateB` over the
whitespace-split words (the `flat_map` on src line 75); a panic in any
word aborts the whole lex. -/
def lexWordsB : List (List Char) → Option (List (List Char))
  | [] => some []
  | w :: ws =>
    match separateB w with
    | some rs =>
      match lexWordsB ws with
      | some rest => some (rs ++ rest)
      | none => none
    | none => none

/-- The source function `lex` (src lines 74-85) on a character list,
byte faithful: whitespace splitting, `separateB` on each word, then
classification of each run; `none` is a lex panic. -/
def lexB (cs : List Char) : Option (List Token) :=
  match lexWordsB (splitWsAux [] cs) with
  | some rs => some (rs.map classify)
  | none => none

/-- Syntax nodes, from `enum Node` and `struct Fun` in src/src/main.rs
(lines 29-40); `Application(Fun { name, args })` is flattened into a
constructor carrying the name and the argument list. -/
inductive Node where
  | symbol : String → Node
  | application : String → List Node → Node
  | number : Nat → Node

/-- Three-valued parser result: `ok`, fatal parse failure (`fail`,
a panic in the source), or fuel exhaustion (`out`, which never occurs
at the canonical fuel). -/
inductive PRes (α : Type) where
  | ok : α → PRes α
  | fail : PRes α
  | out : PRes α
deriving DecidableEq

/-- Sequencing of parser results: a failure or fuel exhaustion
propagates, a success feeds the continuation. -/
def pseq {α β : Type} (r : PRes α) (g : α → PRes β) : PRes β :=
  match r with
  | .ok a => g a
  | .fail => .fail
  | .out => .out

/-- The argument loop of `parse_exp` (src lines 101-107), generic in
the expression parser `pe` it calls back into.  Models
`while tokens[i] != Token::RightParen { ... }`: an empty remainder is
the out-of-bounds panic of `tokens[i]`, a right paren closes the
application (consuming it), and otherwise one expression is parsed and
the loop continues on the remainder.  The fuel bounds the number of
loop iterations. -/
def parseArgsF : Nat → (List Token → PRes (List Token × Node)) → List Token →
    PRes (List Token × List Node)
  | 0, _, _ => .out
  | _+1, _, [] => .fail
  | _+1, _, .rightParen :: rest => .ok (rest, [])
  | f+1, pe, t :: rest =>
    pseq (pe (t :: rest)) (fun pn =>
      pseq (parseArgsF f pe pn.1) (fun pa => .ok (pa.1, pn.2 :: pa.2)))

/-- The source function `parse_exp` (src lines 87-114), with fuel
bounding the nesting depth.  Instead of a consumed-token count the
embedding returns the remaining suffix.  An empty token list is the
`No tokens!` panic; a right paren is the `Unexpected token` panic; a
left paren requires at least three tokens (`Too few tokens!` panic)
and a symbol as function name (`Unexpected token` panic otherwise),
then parses arguments until the closing right paren. -/
def parseExpF : Nat → List Token → PRes (List Token × Node)
  | 0, _ => .out
  | _+1, [] => .fail
  | _+1, .number n :: rest => .ok (rest, .number n)
  | _+1, .symbol s :: rest => .ok (rest, .symbol s)
  | _+1, .rightParen :: _ => .fail
  | f+1, .leftParen :: rest =>
    if rest.length < 2 then .fail
    else match rest with
      | .symbol name :: rest2 =>
        pseq (parseArgsF (rest2.length + 1) (parseExpF f) rest2)
          (fun pa => .ok (pa.1, .application name pa.2))
      | _ => .fail

/-- `parse_exp` at its canonical, always-sufficient fuel. -/
def parseExp1 (ts : List Token) : PRes (List Token × Node) :=
  parseExpF (ts.length + 1) ts

/-- The top-level loop of `parse` (src lines 116-127), with fuel
bounding the number of roots. -/
def parseRootsF : Nat → List Token → PRes (List Node)
  | 0, _ => .out
  | _+1, [] => .ok []
  | f+1, t :: rest =>
    pseq (parseExp1 (t :: rest)) (fun pn =>
      pseq (parseRootsF f pn.1) (fun roots => .ok (pn.2 :: roots)))

/-- The source function `parse` (src lines 116-127) at its canonical,
always-sufficient fuel. -/
def parse (ts : List Token) : PRes (List Node) := parseRootsF (ts.length + 1) ts

/-- The environment: `HashMap<&str, &Node>` (src line 129) modelled as
an association list where the most recent insertion shadows older
entries, matching the observable lookup/insert behaviour of the map. -/
abbrev Env := List (String × Node)

/-- `env.get(name)` (src line 131). -/
def envFind : Env → String → Option Node
  | [], _ => none
  | (k, v) :: rest, s => if k = s then some v else envFind rest s

/-- `env.insert(name, node)` (src line 157). -/
def envInsert (env : Env) (s : String) (v : Node) : Env := (s, v) :: env

/-- Three-valued evaluation result: success, a panic of the source
(`fatal`), or fuel exhaustion (`timeout`).  A computation of the source
diverges exactly when its embedding is `timeout` at every fuel. -/
inductive Res (α : Type) where
  | ok : α → Res α
  | fatal : Res α
  | timeout : Res α
deriving DecidableEq

/-- Left-to-right evaluation of an argument list, threading the
environment (the lazy `f.args.iter().map(|a| eval(&*a, env))` of the
source, src lines 136, 139, 142, forced in order by the fold). -/
def evalArgs (ev : Node → Env → Res (Nat × Env)) :
    List Node → Env → Res (List Nat × Env)
  | [], env => .ok ([], env)
  | a :: as, env =>
    match ev a env with
    | .ok (v, env1) =>
      match evalArgs ev as env1 with
      | .ok (vs, env2) => .ok (v :: vs, env2)
      | .fatal => .fatal
      | .timeout => .timeout
    | .fatal => .fatal
    | .timeout => .timeout

/-- The division loop of `eval` (src lines 147-149): each further
argument is evaluated and then divides the accumulator; a zero divisor
is the divide-by-zero panic, checked before the next argument is
evaluated. -/
def divFold (ev : Node → Env → Res (Nat × Env)) :
    Nat → List Node → Env → Res (Nat × Env)
  | acc, [], env => .ok (acc, env)
  | acc, a :: as, env =>
    match ev a env with
    | .ok (v, env1) => if v = 0 then .fatal else divFold ev (acc / v) as env1
    | .fatal => .fatal
    | .timeout => .timeout

/-- The source function `eval` (src lines 129-164), with fuel counting
recursion depth.  A `Symbol` looks its name up (panicking when absent)
and evaluates the bound node; a `Number` is itself; an application
dispatches on the operator name: `+`, `-` and `*` fold the evaluated
arguments with wrapping u64 arithmetic from 0, 0 and 1 respectively,
`/` seeds the accumulator with the first evaluated argument (panicking
on an empty list) and divides by the rest in order, `define` requires
its first argument node to be a symbol and a second argument node to
exist (panicking otherwise), binds the name to the unevaluated second
node and returns 0, and any other name is the `Uknown function`
panic. -/
def eval : Nat → Node → Env → Res (Nat × Env)
  | 0, _, _ => .timeout
  | f+1, .symbol s, env =>
    match envFind env s with
    | some node => eval f node env
    | none => .fatal
  | _+1, .number n, env => .ok (n, env)
  | f+1, .application name args, env =>
    if name = "+" then
      match evalArgs (eval f) args env with
      | .ok (vs, env2) => .ok (vs.foldl wadd 0, env2)
      | .fatal => .fatal
      | .timeout => .timeout
    else if name = "-" then
      match evalArgs (eval f) args env with
      | .ok (vs, env2) => .ok (vs.foldl wsub 0, env2)
      | .fatal => .fatal
      | .timeout => .timeout
    else if name = "*" then
      match evalArgs (eval f) args env with
      | .ok (vs, env2) => .ok (vs.foldl wmul 1, env2)
      | .fatal => .fatal
      | .timeout => .timeout
    else if name = "/" then
      match args with
      | [] => .fatal
      | a :: as =>
        match eval f a env with
        | .ok (v0, env1) => divFold (eval f) v0 as env1
        | .fatal => .fatal
        | .timeout => .timeout
    else if name = "define" then
      match args with
      | .symbol s :: v :: _ => .ok (0, envInsert env s v)
      | _ => .fatal
    else .fatal

/-- Worker for `eval_program` (src lines 166-175): `res` starts at 0
and is overwritten by each root's value; the environment is shared
across the roots. -/
def evalProgramAux (fuel : Nat) : Nat → Env → List Node → Res (Nat × Env)
  | res, env, [] => .ok (res, env)
  | _, env, root :: roots =>
    match eval fuel root env with
    | .ok (v, env1) => evalProgramAux fuel v env1 roots
    | .fatal => .fatal
    | .timeout => .timeout

/-- The source function `eval_program` (src lines 166-175): evaluate
the roots in order against one environment created empty at the start,
returning the last value (0 for an empty program). -/
def evalProgram (fuel : Nat) (roots : List Node) : Res Nat :=
  match evalProgramAux fuel 0 [] roots with
  | .ok (v, _) => .ok v
  | .fatal => .fatal
  | .timeout => .timeout

/-- The whole pipeline of `main` (src lines 177-187) on one source
string: byte-faithful lex, parse, evaluate; a lex or parse panic is a
fatal result. -/
def runProg (fuel : Nat) (s : String) : Res Nat :=
  match lexB s.data with
  | some ts =>
    match parse ts with
    | .ok roots => evalProgram fuel roots
    | .fail => .fatal
    | .out => .timeout
  | none => .fatal

mutual

/-- Node size (total node count), used to bound evaluation depth. -/
def sizeN : Node → Nat
  | .symbol _ => 1
  | .number _ => 1
  | .application _ args => 1 + sizeL args

def sizeL : List Node → Nat
  | [] => 0
  | a :: as => sizeN a + sizeL as

end

mutual

/-- A node containing no `Symbol` subnode anywhere. -/
def symFreeN : Node → Bool
  | .symbol _ => false
  | .number _ => true
  | .application _ args => symFreeL args

def symFreeL : List Node → Bool
  | [] => true
  | a :: as => symFreeN a && symFreeL as

end

/-- The shape test `eval` applies to the first argument of `define`
(src lines 153-156): is it a `Symbol` node. -/
def headIsSymbol : List Node → Bool
  | .symbol _ :: _ => true
  | _ => false

mutual

/-- Specification-side failure predicate for parsing one expression,
following the spec's wording: a fatal parse failure occurs exactly when
the current token is a right paren or the tokens are exhausted where an
expression is expected, when a left paren has fewer than 3 tokens in
total, or when the token after a left paren is not a symbol; inside an
application the argument positions are governed by `ArgsFail`. -/
inductive ExpFail : List Token → Prop where
  | noTokens : ExpFail []
  | unexpectedRight (rest : List Token) : ExpFail (.rightParen :: rest)
  | tooFew (rest : List Token) : rest.length < 2 → ExpFail (.leftParen :: rest)
  | badName (t : Token) (rest : List Token) : (∀ s, t ≠ .symbol s) →
      ExpFail (.leftParen :: t :: rest)
  | inArgs (name : String) (rest : List Token) : ArgsFail rest →
      ExpFail (.leftParen :: .symbol name :: rest)

/-- Failure of the argument positions of an application: the tokens are
exhausted where an argument expression (or the closing paren) is
expected, the next argument expression fails, or the argument
expression parses and the positions after it fail. -/
inductive ArgsFail : List Token → Prop where
  | exhausted : ArgsFail []
  | expFail (t : Token) (rest : List Token) : t ≠ .rightParen → ExpFail (t :: rest) →
      ArgsFail (t :: rest)
  | contFail (t : Token) (rest rem : List Token) (node : Node) : t ≠ .rightParen →
      parseExp1 (t :: rest) = .ok (rem, node) → ArgsFail rem → ArgsFail (t :: rest)

end

/-- Decimal digit character of a value below 10. -/
def digitChar : Nat → Char
  | 0 => '0'
  | 1 => '1'
  | 2 => '2'
  | 3 => '3'
  | 4 => '4'
  | 5 => '5'
  | 6 => '6'
  | 7 => '7'
  | 8 => '8'
  | _ => '9'

/-- Decimal digit string of a number, with fuel (structural so that it
computes); `natDigits` supplies always-sufficient fuel. -/
def natDigitsF : Nat → Nat → List Char
  | 0, _ => []
  | f+1, n => if n < 10 then [digitChar n] else natDigitsF f (n / 10) ++ [digitChar (n % 10)]

/-- Decimal digit string of a number, most significant digit first. -/
def natDigits (n : Nat) : List Char := natDigitsF (n + 1) n

/-- The canonical text of one token. -/
def tokText : Token → List Char
  | .leftParen => ['(']
  | .rightParen => [')']
  | .number n => natDigits n
  | .symbol s => s.data

/-- Join words with single spaces. -/
def joinSp : List (List Char) → List Char
  | [] => []
  | [w] => w
  | w :: ws => w ++ ' ' :: joinSp ws

/-- Render a token sequence as source text, one space between tokens. -/
def renderToks (ts : List Token) : List Char := joinSp (ts.map tokText)

mutual

/-- The token sequence of one node: its fully parenthesized form. -/
def toksN : Node → List Token
  | .symbol s => [.symbol s]
  | .number n => [.number n]
  | .application name args => .leftParen :: .symbol name :: (toksL args ++ [.rightParen])

/-- The token sequence of a node list, concatenated in order. -/
def toksL : List Node → List Token
  | [] => []
  | a :: as => toksN a ++ toksL as

end

/-- Render a program (root list) as source text. -/
def render (roots : List Node) : List Char := renderToks (toksL roots)

/-- A non-empty text of single-byte characters containing no whitespace
and no parens: it survives the source's lexing as exactly one run (the
byte-position bookkeeping of `separate` is exact on single-byte
characters). -/
def wfText (cs : List Char) : Bool :=
  !cs.isEmpty && cs.all (fun c => !isWs c && !isParen c && decide (c.utf8Size = 1))

/-- A symbol name that lexes back to the same `Symbol` token: a wf run
that does not read as a u64 literal. -/
def wfSym (s : String) : Bool := wfText s.data && (parseU64 s.data).isNone

/-- Well-formedness of one token for the textual round trip: its text
lexes back to exactly this token. -/
def wfTok : Token → Bool
  | .leftParen => true
  | .rightParen => true
  | .number n => decide (n < W)
  | .symbol s => wfSym s

mutual

/-- Well-formedness of a node for the textual round trip: symbol names
are wf and numbers fit in u64. -/
def wfN : Node → Bool
  | .symbol s => wfSym s
  | .number n => decide (n < W)
  | .application name args => wfSym name && wfL args

/-- Well-formedness of every node of a list. -/
def wfL : List Node → Bool
  | [] => true
  | a :: as => wfN a && wfL as

end

/-- Divergence of one `eval` call: fuel exhaustion at every recursion
depth, i.e. the recursion of the source never returns. -/
def evalDiverges (root : Node) (env : Env) : Prop :=
  ∀ fuel, eval fuel root env = .timeout

/-- Divergence of the whole pipeline on a source string. -/
def progDiverges (s : String) : Prop :=
  ∀ fuel, runProg fuel s = .timeout

theorem wadd_lt (a b : Nat) : wadd a b < W := Nat.mod_lt _ W_pos

theorem wsub_lt (a b : Nat) : wsub a b < W := Nat.mod_lt _ W_pos

theorem wmul_lt (a b : Nat) : wmul a b < W := Nat.mod_lt _ W_pos

theorem foldl_wadd : ∀ (vs : List Nat) (a : Nat), a < W →
    vs.foldl wadd a = (a + vs.sum) % W
  | [], a, h => by simp [Nat.mod_eq_of_lt h]
  | v :: vs, a, _ => by
    rw [List.foldl_cons, foldl_wadd vs (wadd a v) (wadd_lt a v), List.sum_cons]
    unfold wadd
    rw [Nat.mod_add_mod, Nat.add_assoc]

theorem foldl_wmul : ∀ (vs : List Nat) (a : Nat), a < W →
    vs.foldl wmul a = (a * vs.prod) % W
  | [], a, h => by simp [Nat.mod_eq_of_lt h]
  | v :: vs, a, _ => by
    rw [List.foldl_cons, foldl_wmul vs (wmul a v) (wmul_lt a v), List.prod_cons]
    unfold wmul
    have h1 : (a * v % W * vs.prod) % W = (a * v * vs.prod) % W :=
      (Nat.mod_modEq (a * v) W).mul_right vs.prod
    rw [h1, Nat.mul_assoc]

theorem foldl_wsub : ∀ (vs : List Nat) (a : Nat), a < W →
    ((vs.foldl wsub a : Nat) : Int) = ((a : Int) - (vs.sum : Int)) % (W : Int)
  | [], a, h => by
    simp only [List.foldl_nil, List.sum_nil, Nat.cast_zero, sub_zero]
    rw [Int.emod_eq_of_lt (by positivity) (by exact_mod_cast h)]
  | v :: vs, a, _ => by
    rw [List.foldl_cons, foldl_wsub vs (wsub a v) (wsub_lt a v), List.sum_cons]
    have hle : v % W ≤ W := (Nat.mod_lt v W_pos).le
    have hcast : ((wsub a v : Nat) : Int) = ((a : Int) % W + (W - (v : Int) % W)) % W := by
      unfold wsub
      push_cast [Nat.cast_sub hle]
      rfl
    rw [hcast]
    have hW : ((W : Nat) : Int) = (18446744073709551616 : Int) := by norm_num [W]
    rw [hW]
    push_cast
    omega

theorem evalProgramAux_append (fuel : Nat) :
    ∀ (l1 : List Node) (res : Nat) (env : Env) (l2 : List Node) (v : Nat) (env1 : Env),
    evalProgramAux fuel res env l1 = .ok (v, env1) →
    evalProgramAux fuel res env (l1 ++ l2) = evalProgramAux fuel v env1 l2
  | [], res, env, l2, v, env1 => by
    intro h
    simp only [evalProgramAux] at h
    cases h
    rfl
  | root :: roots, res, env, l2, v, env1 => by
    intro h
    simp only [evalProgramAux, List.cons_append] at h ⊢
    cases he : eval fuel root env with
    | ok p =>
      rw [he] at h
      exact evalProgramAux_append fuel roots p.1 p.2 l2 v env1 (by
        cases p; exact h)
    | fatal => rw [he] at h; exact absurd h (by simp)
    | timeout => rw [he] at h; exact absurd h (by simp)

theorem divFold_of_evalArgs (ev : Node → Env → Res (Nat × Env)) :
    ∀ (as : List Node) (acc : Nat) (env : Env) (vs : List Nat) (env1 : Env),
    evalArgs ev as env = .ok (vs, env1) → 0 ∉ vs →
    divFold ev acc as env = .ok (vs.foldl (· / ·) acc, env1)
  | [], acc, env, vs, env1 => by
    intro h _
    simp only [evalArgs] at h
    cases h
    rfl
  | a :: as, acc, env, vs, env1 => by
    intro h hz
    simp only [evalArgs] at h
    cases he : ev a env with
    | ok p =>
      rw [he] at h
      obtain ⟨v, e1⟩ := p
      simp only at h
      cases hr : evalArgs ev as e1 with
      | ok q =>
        rw [hr] at h
        obtain ⟨vs', e2⟩ := q
        simp only [PRes.ok.injEq, Prod.mk.injEq] at h
        obtain ⟨rfl, rfl⟩ := h
        have hv : v ≠ 0 := by
          intro hv0
          exact hz (by simp [hv0])
        simp only [divFold, he, if_neg hv, List.foldl_cons]
        exact divFold_of_evalArgs ev as (acc / v) e1 vs' env1 hr
          (fun hm => hz (by simp [hm]))
      | fatal => rw [hr] at h; exact absurd h (by simp)
      | timeout => rw [hr] at h; exact absurd h (by simp)
    | fatal => rw [he] at h; exact absurd h (by simp)
    | timeout => rw [he] at h; exact absurd h (by simp)

theorem divFold_zero (ev : Node → Env → Res (Nat × Env)) :
    ∀ (as : List Node) (acc : Nat) (env : Env) (vs : List Nat) (env1 : Env),
    evalArgs ev as env = .ok (vs, env1) → 0 ∈ vs →
    divFold ev acc as env = .fatal
  | [], _, env, vs, env1 => by
    intro h hz
    simp only [evalArgs] at h
    cases h
    exact absurd hz (by simp)
  | a :: as, acc, env, vs, env1 => by
    intro h hz
    simp only [evalArgs] at h
    cases he : ev a env with
    | ok p =>
      rw [he] at h
      obtain ⟨v, e1⟩ := p
      simp only at h
      cases hr : evalArgs ev as e1 with
      | ok q =>
        rw [hr] at h
        obtain ⟨vs', e2⟩ := q
        simp only [PRes.ok.injEq, Prod.mk.injEq] at h
        obtain ⟨rfl, rfl⟩ := h
        by_cases hv : v = 0
        · simp [divFold, he, hv]
        · simp only [divFold, he, if_neg hv]
          exact divFold_zero ev as (acc / v) e1 vs' env1 hr
            (by rcases List.mem_cons.mp hz with h0 | h0
                · exact absurd h0.symm hv
                · exact h0)
      | fatal => rw [hr] at h; exact absurd h (by simp)
      | timeout => rw [hr] at h; exact absurd h (by simp)
    | fatal => rw [he] at h; exact absurd h (by simp)
    | timeout => rw [he] at h; exact absurd h (by simp)

theorem symFreeL_mem {as : List Node} (h : symFreeL as = true) {a : Node} (ha : a ∈ as) :
    symFreeN a = true := by
  induction as with
  | nil => cases ha
  | cons b bs ih =>
    simp only [symFreeL, Bool.and_eq_true] at h
    rcases List.mem_cons.mp ha with rfl | hm
    · exact h.1
    · exact ih h.2 hm

theorem sizeL_mem {as : List Node} {a : Node} (ha : a ∈ as) : sizeN a ≤ sizeL as := by
  induction as with
  | nil => cases ha
  | cons b bs ih =>
    simp only [sizeL]
    rcases List.mem_cons.mp ha with rfl | hm
    · omega
    · have := ih hm
      omega

theorem evalArgs_no_timeout (ev : Node → Env → Res (Nat × Env)) :
    ∀ (as : List Node), (∀ a ∈ as, ∀ e : Env, ev a e ≠ .timeout) →
    ∀ env : Env, evalArgs ev as env ≠ .timeout
  | [], _, env => by simp [evalArgs]
  | a :: as, h, env => by
    simp only [evalArgs]
    split
    · rename_i v env1 heq
      split
      · simp
      · simp
      · rename_i hr
        exact absurd hr
          (evalArgs_no_timeout ev as (fun b hb e => h b (List.mem_cons_of_mem a hb) e) env1)
    · simp
    · rename_i heq
      exact absurd heq (h a (List.mem_cons_self a as) env)

theorem divFold_no_timeout (ev : Node → Env → Res (Nat × Env)) :
    ∀ (as : List Node), (∀ a ∈ as, ∀ e : Env, ev a e ≠ .timeout) →
    ∀ (acc : Nat) (env : Env), divFold ev acc as env ≠ .timeout
  | [], _, acc, env => by simp [divFold]
  | a :: as, h, acc, env => by
    simp only [divFold]
    split
    · rename_i v env1 heq
      by_cases hv : v = 0
      · simp [hv]
      · simp only [if_neg hv]
        exact divFold_no_timeout ev as
          (fun b hb e => h b (List.mem_cons_of_mem a hb) e) (acc / v) env1
    · simp
    · rename_i heq
      exact absurd heq (h a (List.mem_cons_self a as) env)

theorem eval_symfree_no_timeout :
    ∀ (fuel : Nat) (root : Node) (env : Env), symFreeN root = true →
    sizeN root < fuel → eval fuel root env ≠ .timeout := by
  intro fuel
  induction fuel with
  | zero =>
    intro root env _ h
    exact absurd h (by omega)
  | succ f ih =>
    intro root env hsf hsz
    cases root with
    | symbol s => simp [symFreeN] at hsf
    | number n => simp [eval]
    | application name args =>
      have hargs : ∀ a ∈ args, ∀ e : Env, eval f a e ≠ .timeout := by
        intro a ha e
        apply ih a e (symFreeL_mem (by simpa [symFreeN] using hsf) ha)
        have h1 := sizeL_mem ha
        simp only [sizeN] at hsz
        omega
      simp only [eval]
      by_cases h1 : name = "+"
      · rw [if_pos h1]
        split
        · simp
        · simp
        · rename_i hr
          exact absurd hr (evalArgs_no_timeout (eval f) args hargs env)
      rw [if_neg h1]
      by_cases h2 : name = "-"
      · rw [if_pos h2]
        split
        · simp
        · simp
        · rename_i hr
          exact absurd hr (evalArgs_no_timeout (eval f) args hargs env)
      rw [if_neg h2]
      by_cases h3 : name = "*"
      · rw [if_pos h3]
        split
        · simp
        · simp
        · rename_i hr
          exact absurd hr (evalArgs_no_timeout (eval f) args hargs env)
      rw [if_neg h3]
      by_cases h4 : name = "/"
      · rw [if_pos h4]
        cases args with
        | nil => simp
        | cons a as =>
          have hmem : ∀ b ∈ as, ∀ e : Env, eval f b e ≠ .timeout :=
            fun b hb e => hargs b (List.mem_cons_of_mem a hb) e
          show (match eval f a env with
                | Res.ok (v0, env1) => divFold (eval f) v0 as env1
                | Res.fatal => Res.fatal
                | Res.timeout => Res.timeout) ≠ Res.timeout
          split
          · rename_i v0 env1 heq
            exact divFold_no_timeout (eval f) as hmem v0 env1
          · simp
          · rename_i heq
            exact absurd heq (hargs a (List.mem_cons_self a as) env)
      rw [if_neg h4]
      by_cases h5 : name = "define"
      · rw [if_pos h5]
        split
        · simp
        · simp
      rw [if_neg h5]
      simp

theorem evalDiverges_selfref : evalDiverges (.symbol "x") [("x", .symbol "x")] := by
  intro fuel
  induction fuel with
  | zero => rfl
  | succ f ih => simpa [eval, envFind] using ih

theorem progDiverges_selfref : progDiverges "(define x x) x" := by
  intro fuel
  have h0 : runProg fuel "(define x x) x" =
      evalProgram fuel [.application "define" [.symbol "x", .symbol "x"], .symbol "x"] := rfl
  rw [h0]
  cases fuel with
  | zero => rfl
  | succ f =>
    have h1 : eval (f+1) (.application "define" [.symbol "x", .symbol "x"]) [] =
        .ok (0, [("x", .symbol "x")]) := rfl
    have h2 := evalDiverges_selfref (f+1)
    simp only [evalProgram, evalProgramAux, h1, h2]

theorem eval_add (f : Nat) (args : List Node) (env : Env) (vs : List Nat) (env2 : Env)
    (h : evalArgs (eval f) args env = .ok (vs, env2)) :
    eval (f+1) (.application "+" args) env = .ok (vs.sum % W, env2) := by
  have e : eval (f+1) (.application "+" args) env =
      (match evalArgs (eval f) args env with
       | .ok (vs, env2) => .ok (vs.foldl wadd 0, env2)
       | .fatal => .fatal
       | .timeout => .timeout) := rfl
  rw [e, h]
  show Res.ok (vs.foldl wadd 0, env2) = _
  rw [foldl_wadd vs 0 W_pos, Nat.zero_add]

theorem eval_mul (f : Nat) (args : List Node) (env : Env) (vs : List Nat) (env2 : Env)
    (h : evalArgs (eval f) args env = .ok (vs, env2)) :
    eval (f+1) (.application "*" args) env = .ok (vs.prod % W, env2) := by
  have e : eval (f+1) (.application "*" args) env =
      (match evalArgs (eval f) args env with
       | .ok (vs, env2) => .ok (vs.foldl wmul 1, env2)
       | .fatal => .fatal
       | .timeout => .timeout) := rfl
  rw [e, h]
  show Res.ok (vs.foldl wmul 1, env2) = _
  rw [foldl_wmul vs 1 (by norm_num [W]), Nat.one_mul]

theorem eval_sub (f : Nat) (args : List Node) (env : Env) (vs : List Nat) (env2 : Env)
    (h : evalArgs (eval f) args env = .ok (vs, env2)) :
    eval (f+1) (.application "-" args) env =
      .ok ((((0 : Int) - (vs.sum : Int)) % (2 ^ 64 : Int)).toNat, env2) := by
  have e : eval (f+1) (.application "-" args) env =
      (match evalArgs (eval f) args env with
       | .ok (vs, env2) => .ok (vs.foldl wsub 0, env2)
       | .fatal => .fatal
       | .timeout => .timeout) := rfl
  rw [e, h]
  show Res.ok (vs.foldl wsub 0, env2) = _
  have h1 := foldl_wsub vs 0 W_pos
  have h2 : ((W : Nat) : Int) = (2 ^ 64 : Int) := by norm_num [W]
  rw [h2, Nat.cast_zero] at h1
  have h3 : vs.foldl wsub 0 = (((0 : Int) - (vs.sum : Int)) % (2 ^ 64 : Int)).toNat := by
    omega
  rw [h3]

theorem eval_div_nil (f : Nat) (env : Env) :
    eval (f+1) (.application "/" []) env = .fatal := rfl

theorem eval_div_cons (f : Nat) (a : Node) (as : List Node) (env : Env) :
    eval (f+1) (.application "/" (a :: as)) env =
      (match eval f a env with
       | .ok (v0, env1) => divFold (eval f) v0 as env1
       | .fatal => .fatal
       | .timeout => .timeout) := rfl

theorem eval_define_ok (f : Nat) (env : Env) (s : String) (v : Node) (rest : List Node) :
    eval (f+1) (.application "define" (.symbol s :: v :: rest)) env =
      .ok (0, envInsert env s v) := rfl

theorem eval_define_fatal (f : Nat) (env : Env) (args : List Node)
    (h : args.length < 2 ∨ headIsSymbol args = false) :
    eval (f+1) (.application "define" args) env = .fatal := by
  cases args with
  | nil => rfl
  | cons a0 rest =>
    cases a0 with
    | symbol s =>
      cases rest with
      | nil => rfl
      | cons v r =>
        rcases h with h | h
        · exact absurd h (by simp)
        · exact absurd h (by simp [headIsSymbol])
    | number n => rfl
    | application m bs => rfl

theorem pseq_ok {α β : Type} (a : α) (g : α → PRes β) : pseq (.ok a) g = g a := rfl

theorem parseArgsF_cons_eq (f : Nat) (pe : List Token → PRes (List Token × Node))
    (t : Token) (rest : List Token) (h : t ≠ Token.rightParen) :
    parseArgsF (f+1) pe (t :: rest) =
      pseq (pe (t :: rest)) (fun pn =>
        pseq (parseArgsF f pe pn.1) (fun pa => .ok (pa.1, pn.2 :: pa.2))) := by
  cases t with
  | rightParen => exact absurd rfl h
  | leftParen => rfl
  | number n => rfl
  | symbol s => rfl

theorem parseExpF_lp (f : Nat) (name : String) (rest2 : List Token)
    (h2 : 1 ≤ rest2.length) :
    parseExpF (f+1) (.leftParen :: .symbol name :: rest2) =
      pseq (parseArgsF (rest2.length + 1) (parseExpF f) rest2)
        (fun pa => .ok (pa.1, .application name pa.2)) := by
  have hlen : ¬ ((Token.symbol name :: rest2).length < 2) := by
    simp only [List.length_cons]
    omega
  simp only [parseExpF, if_neg hlen]

theorem parseArgsF_consume (pe : List Token → PRes (List Token × Node))
    (hpe : ∀ ts rem node, pe ts = .ok (rem, node) → rem.length < ts.length) :
    ∀ (fuel : Nat) (ts rem : List Token) (args : List Node),
    parseArgsF fuel pe ts = .ok (rem, args) → rem.length < ts.length := by
  intro fuel
  induction fuel with
  | zero =>
    intro ts rem args h
    exact absurd h (by simp [parseArgsF])
  | succ f ih =>
    intro ts rem args h
    cases ts with
    | nil => exact absurd h (by simp [parseArgsF])
    | cons t rest =>
      by_cases ht : t = Token.rightParen
      · subst ht
        simp only [parseArgsF, PRes.ok.injEq, Prod.mk.injEq] at h
        obtain ⟨rfl, rfl⟩ := h
        simp
      · rw [parseArgsF_cons_eq f pe t rest ht] at h
        cases hp : pe (t :: rest) with
        | ok pn =>
          simp only [hp, pseq_ok] at h
          cases hq : parseArgsF f pe pn.1 with
          | ok pa =>
            simp only [hq, pseq_ok, PRes.ok.injEq, Prod.mk.injEq] at h
            obtain ⟨rfl, rfl⟩ := h
            exact (ih pn.1 pa.1 pa.2 hq).trans (hpe _ _ _ hp)
          | fail => rw [hq] at h; exact absurd h (by simp [pseq])
          | out => rw [hq] at h; exact absurd h (by simp [pseq])
        | fail => rw [hp] at h; exact absurd h (by simp [pseq])
        | out => rw [hp] at h; exact absurd h (by simp [pseq])

theorem parseExpF_consume :
    ∀ (f : Nat) (ts rem : List Token) (node : Node),
    parseExpF f ts = .ok (rem, node) → rem.length < ts.length := by
  intro f
  induction f with
  | zero =>
    intro ts rem node h
    exact absurd h (by simp [parseExpF])
  | succ f ih =>
    intro ts rem node h
    cases ts with
    | nil => exact absurd h (by simp [parseExpF])
    | cons t rest =>
      cases t with
      | number n =>
        simp only [parseExpF, PRes.ok.injEq, Prod.mk.injEq] at h
        obtain ⟨rfl, rfl⟩ := h
        simp
      | symbol s =>
        simp only [parseExpF, PRes.ok.injEq, Prod.mk.injEq] at h
        obtain ⟨rfl, rfl⟩ := h
        simp
      | rightParen => exact absurd h (by simp [parseExpF])
      | leftParen =>
        by_cases hlen : rest.length < 2
        · rw [show parseExpF (f+1) (.leftParen :: rest) = .fail by
            simp [parseExpF, if_pos hlen]] at h
          exact absurd h (by simp)
        · cases rest with
          | nil => exact absurd (by simp) hlen
          | cons t1 rest2 =>
            cases t1 with
            | symbol name =>
              have h1 : 1 ≤ rest2.length := by
                simp only [List.length_cons] at hlen
                omega
              rw [parseExpF_lp f name rest2 h1] at h
              cases hq : parseArgsF (rest2.length + 1) (parseExpF f) rest2 with
              | ok pa =>
                simp only [hq, pseq_ok, PRes.ok.injEq, Prod.mk.injEq] at h
                obtain ⟨rfl, rfl⟩ := h
                have h2 := parseArgsF_consume (parseExpF f)
                  (fun a b c => ih a b c) (rest2.length + 1) rest2 pa.1 pa.2 hq
                simp only [List.length_cons]
                omega
              | fail => rw [hq] at h; exact absurd h (by simp [pseq])
              | out => rw [hq] at h; exact absurd h (by simp [pseq])
            | leftParen => exact absurd h (by simp [parseExpF, if_neg hlen])
            | number n => exact absurd h (by simp [parseExpF, if_neg hlen])
            | rightParen => exact absurd h (by simp [parseExpF, if_neg hlen])

theorem parseArgsF_mono (pe pe' : List Token → PRes (List Token × Node))
    (hpe : ∀ ts r, pe ts = r → r ≠ .out → pe' ts = r) :
    ∀ (f f' : Nat), f ≤ f' → ∀ (ts : List Token) (r : PRes (List Token × List Node)),
    parseArgsF f pe ts = r → r ≠ .out → parseArgsF f' pe' ts = r := by
  intro f
  induction f with
  | zero =>
    intro f' _ ts r h hr
    exact absurd (by rw [← h]; rfl) hr
  | succ f ih =>
    intro f' hff ts r h hr
    obtain ⟨g, rfl⟩ : ∃ g, f' = g + 1 := ⟨f' - 1, by omega⟩
    cases ts with
    | nil => rw [← h]; rfl
    | cons t rest =>
      by_cases ht : t = Token.rightParen
      · subst ht
        rw [← h]; rfl
      · rw [parseArgsF_cons_eq f pe t rest ht] at h
        rw [parseArgsF_cons_eq g pe' t rest ht]
        cases hp : pe (t :: rest) with
        | ok pn =>
          simp only [hp, pseq_ok] at h
          simp only [hpe _ _ hp (by simp), pseq_ok]
          cases hq : parseArgsF f pe pn.1 with
          | ok pa =>
            simp only [hq, pseq_ok] at h
            simp only [ih g (by omega) pn.1 _ hq (by simp), pseq_ok]
            exact h
          | fail =>
            simp only [hq] at h
            simp only [ih g (by omega) pn.1 _ hq (by simp)]
            exact h
          | out =>
            simp only [hq] at h
            exact absurd (by rw [← h]; rfl) hr
        | fail =>
          simp only [hp] at h
          simp only [hpe _ _ hp (by simp)]
          exact h
        | out =>
          simp only [hp] at h
          exact absurd (by rw [← h]; rfl) hr

theorem parseExpF_mono :
    ∀ (f f' : Nat), f ≤ f' → ∀ (ts : List Token) (r : PRes (List Token × Node)),
    parseExpF f ts = r → r ≠ .out → parseExpF f' ts = r := by
  intro f
  induction f with
  | zero =>
    intro f' _ ts r h hr
    exact absurd (by rw [← h]; rfl) hr
  | succ f ih =>
    intro f' hff ts r h hr
    obtain ⟨g, rfl⟩ : ∃ g, f' = g + 1 := ⟨f' - 1, by omega⟩
    have hfg : f ≤ g := by omega
    cases ts with
    | nil => rw [← h]; rfl
    | cons t rest =>
      cases t with
      | number n => rw [← h]; rfl
      | symbol s => rw [← h]; rfl
      | rightParen => rw [← h]; rfl
      | leftParen =>
        by_cases hlen : rest.length < 2
        · rw [← h]
          simp [parseExpF, if_pos hlen]
        · cases rest with
          | nil => exact absurd (by simp) hlen
          | cons t1 rest2 =>
            cases t1 with
            | symbol name =>
              have h1 : 1 ≤ rest2.length := by
                simp only [List.length_cons] at hlen
                omega
              rw [parseExpF_lp f name rest2 h1] at h
              rw [parseExpF_lp g name rest2 h1]
              cases hq : parseArgsF (rest2.length + 1) (parseExpF f) rest2 with
              | ok pa =>
                simp only [hq, pseq_ok] at h
                simp only [parseArgsF_mono (parseExpF f) (parseExpF g) (ih g hfg)
                  (rest2.length + 1) (rest2.length + 1) le_rfl rest2 _ hq (by simp), pseq_ok]
                exact h
              | fail =>
                simp only [hq] at h
                simp only [parseArgsF_mono (parseExpF f) (parseExpF g) (ih g hfg)
                  (rest2.length + 1) (rest2.length + 1) le_rfl rest2 _ hq (by simp)]
                exact h
              | out =>
                simp only [hq] at h
                exact absurd (by rw [← h]; rfl) hr
            | leftParen =>
              rw [← h]
              simp [parseExpF, if_neg hlen]
            | number n =>
              rw [← h]
              simp [parseExpF, if_neg hlen]
            | rightParen =>
              rw [← h]
              simp [parseExpF, if_neg hlen]

theorem parseArgsF_no_out (pe : List Token → PRes (List Token × Node)) (N : Nat)
    (hno : ∀ ts : List Token, ts.length ≤ N → pe ts ≠ .out)
    (hpe : ∀ ts rem node, pe ts = .ok (rem, node) → rem.length < ts.length) :
    ∀ (fuel : Nat) (ts : List Token), ts.length < fuel → ts.length ≤ N →
    parseArgsF fuel pe ts ≠ .out := by
  intro fuel
  induction fuel with
  | zero =>
    intro ts h _
    exact absurd h (by omega)
  | succ f ih =>
    intro ts hf hN
    cases ts with
    | nil => simp [parseArgsF]
    | cons t rest =>
      by_cases ht : t = Token.rightParen
      · subst ht
        simp [parseArgsF]
      · rw [parseArgsF_cons_eq f pe t rest ht]
        cases hp : pe (t :: rest) with
        | ok pn =>
          simp only [pseq_ok]
          cases hq : parseArgsF f pe pn.1 with
          | ok pa => simp [pseq]
          | fail => simp [pseq]
          | out =>
            have hlt : pn.1.length < (t :: rest).length := hpe _ _ _ hp
            exact absurd hq (ih pn.1 (by omega) (by omega))
        | fail => simp [pseq]
        | out => exact absurd hp (hno _ hN)

theorem parseExpF_no_out :
    ∀ (f : Nat) (ts : List Token), ts.length < f → parseExpF f ts ≠ .out := by
  intro f
  induction f with
  | zero =>
    intro ts h
    exact absurd h (by omega)
  | succ f ih =>
    intro ts hf
    cases ts with
    | nil => simp [parseExpF]
    | cons t rest =>
      cases t with
      | number n => simp [parseExpF]
      | symbol s => simp [parseExpF]
      | rightParen => simp [parseExpF]
      | leftParen =>
        by_cases hlen : rest.length < 2
        · simp [parseExpF, if_pos hlen]
        · cases rest with
          | nil => exact absurd (by simp) hlen
          | cons t1 rest2 =>
            cases t1 with
            | symbol name =>
              have h1 : 1 ≤ rest2.length := by
                simp only [List.length_cons] at hlen
                omega
              rw [parseExpF_lp f name rest2 h1]
              have hlt : rest2.length < f := by
                simp only [List.length_cons] at hf
                omega
              have hno := parseArgsF_no_out (parseExpF f) rest2.length
                (fun ts' hts' => ih ts' (by omega))
                (fun a b c => parseExpF_consume f a b c)
                (rest2.length + 1) rest2 (by omega) le_rfl
              cases hq : parseArgsF (rest2.length + 1) (parseExpF f) rest2 with
              | ok pa => simp [pseq]
              | fail => simp [pseq]
              | out => exact absurd hq hno
            | leftParen => simp [parseExpF, if_neg hlen]
            | number n => simp [parseExpF, if_neg hlen]
            | rightParen => simp [parseExpF, if_neg hlen]

theorem parseExpF_stable (f : Nat) (ts : List Token) (h : ts.length < f) :
    parseExpF f ts = parseExp1 ts := by
  unfold parseExp1
  cases hq : parseExpF (ts.length + 1) ts with
  | ok p => exact parseExpF_mono (ts.length + 1) f (by omega) ts _ hq (by simp)
  | fail => exact parseExpF_mono (ts.length + 1) f (by omega) ts _ hq (by simp)
  | out => exact absurd hq (parseExpF_no_out (ts.length + 1) ts (by omega))

theorem parseExp1_no_out (ts : List Token) : parseExp1 ts ≠ .out :=
  parseExpF_no_out (ts.length + 1) ts (by omega)

theorem parseExp1_consume (ts rem : List Token) (node : Node)
    (h : parseExp1 ts = .ok (rem, node)) : rem.length < ts.length :=
  parseExpF_consume (ts.length + 1) ts rem node h

theorem parseRootsF_no_out :
    ∀ (f : Nat) (ts : List Token), ts.length < f → parseRootsF f ts ≠ .out := by
  intro f
  induction f with
  | zero =>
    intro ts h
    exact absurd h (by omega)
  | succ f ih =>
    intro ts hf
    cases ts with
    | nil => simp [parseRootsF]
    | cons t rest =>
      simp only [parseRootsF]
      cases hp : parseExp1 (t :: rest) with
      | ok pn =>
        simp only [pseq_ok]
        cases hq : parseRootsF f pn.1 with
        | ok roots => simp [pseq]
        | fail => simp [pseq]
        | out =>
          have hlt : pn.1.length < (t :: rest).length := parseExp1_consume _ _ _ hp
          exact absurd hq (ih pn.1 (by omega))
      | fail => simp [pseq]
      | out => exact absurd hp (parseExp1_no_out _)

theorem parseRootsF_mono :
    ∀ (f f' : Nat), f ≤ f' → ∀ (ts : List Token) (r : PRes (List Node)),
    parseRootsF f ts = r → r ≠ .out → parseRootsF f' ts = r := by
  intro f
  induction f with
  | zero =>
    intro f' _ ts r h hr
    exact absurd (by rw [← h]; rfl) hr
  | succ f ih =>
    intro f' hff ts r h hr
    obtain ⟨g, rfl⟩ : ∃ g, f' = g + 1 := ⟨f' - 1, by omega⟩
    cases ts with
    | nil => rw [← h]; rfl
    | cons t rest =>
      simp only [parseRootsF] at h ⊢
      cases hp : parseExp1 (t :: rest) with
      | ok pn =>
        simp only [hp, pseq_ok] at h ⊢
        cases hq : parseRootsF f pn.1 with
        | ok roots =>
          simp only [hq, pseq_ok] at h
          simp only [ih g (by omega) pn.1 _ hq (by simp), pseq_ok]
          exact h
        | fail =>
          simp only [hq] at h
          simp only [ih g (by omega) pn.1 _ hq (by simp)]
          exact h
        | out =>
          simp only [hq] at h
          exact absurd (by rw [← h]; rfl) hr
      | fail =>
        simp only [hp] at h ⊢
        exact h
      | out =>
        simp only [hp] at h
        exact absurd (by rw [← h]; rfl) hr

theorem parseRootsF_stable (f : Nat) (ts : List Token) (h : ts.length < f) :
    parseRootsF f ts = parse ts := by
  unfold parse
  cases hq : parseRootsF (ts.length + 1) ts with
  | ok roots => exact parseRootsF_mono (ts.length + 1) f (by omega) ts _ hq (by simp)
  | fail => exact parseRootsF_mono (ts.length + 1) f (by omega) ts _ hq (by simp)
  | out => exact absurd hq (parseRootsF_no_out (ts.length + 1) ts (by omega))

theorem parse_no_out (ts : List Token) : parse ts ≠ .out :=
  parseRootsF_no_out (ts.length + 1) ts (by omega)

theorem expFail_sound :
    ∀ (N : Nat) (ts : List Token), ts.length ≤ N →
    (ExpFail ts → ∀ f, ts.length < f → parseExpF f ts = .fail) ∧
    (ArgsFail ts → ∀ f fuel, ts.length < f → ts.length < fuel →
      parseArgsF fuel (parseExpF f) ts = .fail) := by
  intro N
  induction N with
  | zero =>
    intro ts hN
    have hts : ts = [] := List.length_eq_zero.mp (by omega)
    subst hts
    constructor
    · intro _ f hf
      obtain ⟨g, rfl⟩ : ∃ g, f = g + 1 := ⟨f - 1, by omega⟩
      rfl
    · intro _ f fuel _ hfuel
      obtain ⟨g, rfl⟩ : ∃ g, fuel = g + 1 := ⟨fuel - 1, by omega⟩
      rfl
  | succ N ih =>
    intro ts hN
    have hexp : ExpFail ts → ∀ f, ts.length < f → parseExpF f ts = .fail := by
      intro hfail f hf
      obtain ⟨g, rfl⟩ : ∃ g, f = g + 1 := ⟨f - 1, by omega⟩
      cases hfail with
      | noTokens => rfl
      | unexpectedRight rest => rfl
      | tooFew rest hlen => simp [parseExpF, if_pos hlen]
      | badName t rest hns =>
        by_cases hlen : (t :: rest).length < 2
        · simp only [parseExpF]
          rw [if_pos hlen]
        · cases t with
          | symbol s => exact absurd rfl (hns s)
          | leftParen => simp [parseExpF, if_neg hlen]
          | rightParen => simp [parseExpF, if_neg hlen]
          | number n => simp [parseExpF, if_neg hlen]
      | inArgs name rest hargs =>
        cases rest with
        | nil => simp [parseExpF]
        | cons t1 r1 =>
          have h1 : 1 ≤ (t1 :: r1).length := by simp
          rw [parseExpF_lp g name (t1 :: r1) h1]
          have hrec := (ih (t1 :: r1) (by
            simp only [List.length_cons] at hN ⊢
            omega)).2 hargs g ((t1 :: r1).length + 1)
            (by simp only [List.length_cons] at hf ⊢; omega) (by omega)
          rw [hrec]
          rfl
    have hargs : ArgsFail ts → ∀ f fuel, ts.length < f → ts.length < fuel →
        parseArgsF fuel (parseExpF f) ts = .fail := by
      intro hfail f fuel hf hfuel
      obtain ⟨g, rfl⟩ : ∃ g, fuel = g + 1 := ⟨fuel - 1, by omega⟩
      cases hfail with
      | exhausted => rfl
      | expFail t rest hne hexp2 =>
        rw [parseArgsF_cons_eq g (parseExpF f) t rest hne]
        simp only [hexp hexp2 f hf]
        rfl
      | contFail t rest rem node hne hok hrest =>
        rw [parseArgsF_cons_eq g (parseExpF f) t rest hne]
        have hpe : parseExpF f (t :: rest) = .ok (rem, node) := by
          rw [parseExpF_stable f (t :: rest) hf]
          exact hok
        simp only [hpe, pseq_ok]
        have hlt : rem.length < (t :: rest).length := parseExp1_consume _ _ _ hok
        have hrec := (ih rem (by omega)).2 hrest f g (by omega) (by omega)
        simp only [hrec]
        rfl
    exact ⟨hexp, hargs⟩

theorem expFail_complete :
    ∀ (N : Nat) (ts : List Token), ts.length ≤ N →
    (∀ f, ts.length < f → parseExpF f ts = .fail → ExpFail ts) ∧
    (∀ f fuel, ts.length < f → ts.length < fuel →
      parseArgsF fuel (parseExpF f) ts = .fail → ArgsFail ts) := by
  intro N
  induction N with
  | zero =>
    intro ts hN
    have hts : ts = [] := List.length_eq_zero.mp (by omega)
    subst hts
    exact ⟨fun _ _ _ => ExpFail.noTokens, fun _ _ _ _ _ => ArgsFail.exhausted⟩
  | succ N ih =>
    intro ts hN
    have hexp : ∀ f, ts.length < f → parseExpF f ts = .fail → ExpFail ts := by
      intro f hf h
      obtain ⟨g, rfl⟩ : ∃ g, f = g + 1 := ⟨f - 1, by omega⟩
      cases ts with
      | nil => exact ExpFail.noTokens
      | cons t rest =>
        cases t with
        | number n => exact absurd h (by simp [parseExpF])
        | symbol s => exact absurd h (by simp [parseExpF])
        | rightParen => exact ExpFail.unexpectedRight rest
        | leftParen =>
          by_cases hlen : rest.length < 2
          · exact ExpFail.tooFew rest hlen
          · cases rest with
            | nil => exact absurd (by simp) hlen
            | cons t1 rest2 =>
              cases t1 with
              | symbol name =>
                have h1 : 1 ≤ rest2.length := by
                  simp only [List.length_cons] at hlen
                  omega
                rw [parseExpF_lp g name rest2 h1] at h
                cases hq : parseArgsF (rest2.length + 1) (parseExpF g) rest2 with
                | ok pa => rw [hq] at h; exact absurd h (by simp [pseq])
                | out => rw [hq] at h; exact absurd h (by simp [pseq])
                | fail =>
                  have hrest : ArgsFail rest2 := (ih rest2 (by
                    simp only [List.length_cons] at hN
                    omega)).2 g (rest2.length + 1)
                    (by simp only [List.length_cons] at hf; omega) (by omega) hq
                  exact ExpFail.inArgs name rest2 hrest
              | leftParen => exact ExpFail.badName _ rest2 (by intro s; simp)
              | number n => exact ExpFail.badName _ rest2 (by intro s; simp)
              | rightParen => exact ExpFail.badName _ rest2 (by intro s; simp)
    have hargsc : ∀ f fuel, ts.length < f → ts.length < fuel →
        parseArgsF fuel (parseExpF f) ts = .fail → ArgsFail ts := by
      intro f fuel hf hfuel h
      obtain ⟨g, rfl⟩ : ∃ g, fuel = g + 1 := ⟨fuel - 1, by omega⟩
      cases ts with
      | nil => exact ArgsFail.exhausted
      | cons t rest =>
        by_cases ht : t = Token.rightParen
        · subst ht
          exact absurd h (by simp [parseArgsF])
        · rw [parseArgsF_cons_eq g (parseExpF f) t rest ht] at h
          cases hp : parseExpF f (t :: rest) with
          | fail => exact ArgsFail.expFail t rest ht (hexp f hf hp)
          | out => exact absurd hp (parseExpF_no_out f _ hf)
          | ok pn =>
            simp only [hp, pseq_ok] at h
            cases hq : parseArgsF g (parseExpF f) pn.1 with
            | ok pa => rw [hq] at h; exact absurd h (by simp [pseq])
            | out => rw [hq] at h; exact absurd h (by simp [pseq])
            | fail =>
              have hok1 : parseExp1 (t :: rest) = .ok (pn.1, pn.2) := by
                rw [← parseExpF_stable f (t :: rest) hf]
                exact hp
              have hlt : pn.1.length < (t :: rest).length := parseExpF_consume f _ _ _ hp
              have hrest : ArgsFail pn.1 := (ih pn.1 (by omega)).2 f g (by omega) (by omega) hq
              exact ArgsFail.contFail t rest pn.1 pn.2 ht hok1 hrest
    exact ⟨hexp, hargsc⟩

theorem paren_not_ws (c : Char) (hc : isParen c = true) : isWs c = false := by
  simp only [isParen, Bool.or_eq_true, decide_eq_true_eq] at hc
  rcases hc with rfl | rfl <;> decide

theorem sepWords_append : ∀ (x y : List (List Char)),
    sepWords (x ++ y) = sepWords x ++ sepWords y
  | [], y => rfl
  | w :: x, y => by
    rw [List.cons_append]
    show separate w ++ sepWords (x ++ y) = (separate w ++ sepWords x) ++ sepWords y
    rw [sepWords_append x y, List.append_assoc]

theorem sepWords_flush (p : List Char) (y : List (List Char)) :
    sepWords ((if p.isEmpty then [] else [p.reverse]) ++ y) =
      separate p.reverse ++ sepWords y := by
  cases p with
  | nil => simp [sepWords, separate, sepAux]
  | cons d p' => simp [sepWords, separate]

theorem sepWords_splitNil (p : List Char) :
    sepWords (splitWsAux p []) = separate p.reverse := by
  have h1 : splitWsAux p [] = (if p.isEmpty then [] else [p.reverse]) ++ [] := by
    simp [splitWsAux]
  rw [h1, sepWords_flush]
  simp [sepWords]

theorem sepAux_insert (c : Char) (hc : isParen c = true) :
    ∀ (x y acc : List Char),
    sepAux acc (x ++ c :: y) = sepAux acc x ++ [c] :: sepAux [] y := by
  intro x
  induction x with
  | nil =>
    intro y acc
    simp [sepAux, hc]
  | cons d x' ih =>
    intro y acc
    by_cases hd : isParen d = true
    · have e1 : sepAux acc (d :: (x' ++ c :: y)) =
          (if acc.isEmpty then [] else [acc.reverse]) ++ [d] :: sepAux [] (x' ++ c :: y) := by
        simp [sepAux, hd]
      have e2 : sepAux acc (d :: x') =
          (if acc.isEmpty then [] else [acc.reverse]) ++ [d] :: sepAux [] x' := by
        simp [sepAux, hd]
      rw [List.cons_append, e1, e2, ih]
      simp
    · have e1 : sepAux acc (d :: (x' ++ c :: y)) = sepAux (d :: acc) (x' ++ c :: y) := by
        simp [sepAux, hd]
      have e2 : sepAux acc (d :: x') = sepAux (d :: acc) x' := by
        simp [sepAux, hd]
      rw [List.cons_append, e1, e2, ih]

theorem separate_insert (c : Char) (hc : isParen c = true) (x y : List Char) :
    separate (x ++ c :: y) = separate x ++ [c] :: separate y :=
  sepAux_insert c hc x y []

theorem runs_pend (c : Char) (hc : isParen c = true) :
    ∀ (b q p : List Char),
    sepWords (splitWsAux (q ++ c :: p) b) =
      separate p.reverse ++ [c] :: sepWords (splitWsAux q b) := by
  intro b
  induction b with
  | nil =>
    intro q p
    rw [sepWords_splitNil, sepWords_splitNil]
    have e : (q ++ c :: p).reverse = p.reverse ++ c :: q.reverse := by simp
    rw [e, separate_insert c hc]
  | cons d b' ih =>
    intro q p
    by_cases hd : isWs d = true
    · have e1 : splitWsAux (q ++ c :: p) (d :: b') =
          (if (q ++ c :: p).isEmpty then [] else [(q ++ c :: p).reverse]) ++
            splitWsAux [] b' := by
        simp [splitWsAux, hd]
      have e2 : splitWsAux q (d :: b') =
          (if q.isEmpty then [] else [q.reverse]) ++ splitWsAux [] b' := by
        simp [splitWsAux, hd]
      rw [e1, e2, sepWords_flush, sepWords_flush]
      have e : (q ++ c :: p).reverse = p.reverse ++ c :: q.reverse := by simp
      rw [e, separate_insert c hc]
      simp
    · have e1 : splitWsAux (q ++ c :: p) (d :: b') = splitWsAux ((d :: q) ++ c :: p) b' := by
        simp [splitWsAux, hd]
      have e2 : splitWsAux q (d :: b') = splitWsAux (d :: q) b' := by
        simp [splitWsAux, hd]
      rw [e1, e2, ih (d :: q) p]

theorem runs_paren_insert (c : Char) (hc : isParen c = true) :
    ∀ (a b p : List Char),
    sepWords (splitWsAux p (a ++ c :: b)) =
      sepWords (splitWsAux p a) ++ [c] :: sepWords (splitWsAux [] b) := by
  intro a
  induction a with
  | nil =>
    intro b p
    have hw : isWs c = false := paren_not_ws c hc
    have e1 : splitWsAux p (c :: b) = splitWsAux (c :: p) b := by
      simp [splitWsAux, hw]
    rw [List.nil_append, e1]
    have h2 := runs_pend c hc b [] p
    simp only [List.nil_append] at h2
    rw [h2, sepWords_splitNil]
  | cons d a' ih =>
    intro b p
    by_cases hd : isWs d = true
    · have e1 : splitWsAux p ((d :: a') ++ c :: b) =
          (if p.isEmpty then [] else [p.reverse]) ++ splitWsAux [] (a' ++ c :: b) := by
        simp [splitWsAux, hd]
      have e2 : splitWsAux p (d :: a') =
          (if p.isEmpty then [] else [p.reverse]) ++ splitWsAux [] a' := by
        simp [splitWsAux, hd]
      rw [e1, e2, sepWords_flush, sepWords_flush, ih b []]
      simp
    · have e1 : splitWsAux p ((d :: a') ++ c :: b) = splitWsAux (d :: p) (a' ++ c :: b) := by
        simp [splitWsAux, hd]
      have e2 : splitWsAux p (d :: a') = splitWsAux (d :: p) a' := by
        simp [splitWsAux, hd]
      rw [e1, e2, ih b (d :: p)]

theorem runs_ws_insert (c : Char) (hc : isWs c = true) :
    ∀ (a b p : List Char),
    sepWords (splitWsAux p (a ++ c :: b)) =
      sepWords (splitWsAux p a) ++ sepWords (splitWsAux [] b) := by
  intro a
  induction a with
  | nil =>
    intro b p
    have e1 : splitWsAux p (c :: b) =
        (if p.isEmpty then [] else [p.reverse]) ++ splitWsAux [] b := by
      simp [splitWsAux, hc]
    rw [List.nil_append, e1, sepWords_flush, sepWords_splitNil]
  | cons d a' ih =>
    intro b p
    by_cases hd : isWs d = true
    · have e1 : splitWsAux p ((d :: a') ++ c :: b) =
          (if p.isEmpty then [] else [p.reverse]) ++ splitWsAux [] (a' ++ c :: b) := by
        simp [splitWsAux, hd]
      have e2 : splitWsAux p (d :: a') =
          (if p.isEmpty then [] else [p.reverse]) ++ splitWsAux [] a' := by
        simp [splitWsAux, hd]
      rw [e1, e2, sepWords_flush, sepWords_flush, ih b []]
      simp
    · have e1 : splitWsAux p ((d :: a') ++ c :: b) = splitWsAux (d :: p) (a' ++ c :: b) := by
        simp [splitWsAux, hd]
      have e2 : splitWsAux p (d :: a') = splitWsAux (d :: p) a' := by
        simp [splitWsAux, hd]
      rw [e1, e2, ih b (d :: p)]

theorem lexL_paren_insert (c : Char) (hc : isParen c = true) (a b : List Char) :
    lexL (a ++ c :: b) = lexL a ++ classify [c] :: lexL b := by
  unfold lexL
  rw [runs_paren_insert c hc a b []]
  simp

theorem lexL_ws_insert (c : Char) (hc : isWs c = true) (a b : List Char) :
    lexL (a ++ c :: b) = lexL a ++ lexL b := by
  unfold lexL
  rw [runs_ws_insert c hc a b []]
  simp

theorem splitWs_nows : ∀ (w p : List Char), (∀ ch ∈ w, isWs ch = false) →
    splitWsAux p w = splitWsAux (w.reverse ++ p) [] := by
  intro w
  induction w with
  | nil =>
    intro p _
    rfl
  | cons d w' ih =>
    intro p h
    have hd : isWs d = false := h d (List.mem_cons_self d w')
    have e1 : splitWsAux p (d :: w') = splitWsAux (d :: p) w' := by
      simp [splitWsAux, hd]
    rw [e1, ih (d :: p) (fun ch hch => h ch (List.mem_cons_of_mem d hch))]
    congr 1
    simp

theorem sep_noparen : ∀ (w acc : List Char), (∀ ch ∈ w, isParen ch = false) →
    sepAux acc w = sepAux (w.reverse ++ acc) [] := by
  intro w
  induction w with
  | nil =>
    intro acc _
    rfl
  | cons d w' ih =>
    intro acc h
    have hd : isParen d = false := h d (List.mem_cons_self d w')
    have e1 : sepAux acc (d :: w') = sepAux (d :: acc) w' := by
      simp [sepAux, hd]
    rw [e1, ih (d :: acc) (fun ch hch => h ch (List.mem_cons_of_mem d hch))]
    congr 1
    simp

theorem separate_noparen (w : List Char) (hne : w ≠ [])
    (h : ∀ ch ∈ w, isParen ch = false) : separate w = [w] := by
  unfold separate
  rw [sep_noparen w [] h, List.append_nil]
  obtain ⟨x, xs, rfl⟩ := List.exists_cons_of_ne_nil hne
  have hne2 : ((x :: xs).reverse).isEmpty = false := by
    simp [List.isEmpty_iff]
  rw [show sepAux (x :: xs).reverse [] =
    (if ((x :: xs).reverse).isEmpty then [] else [(x :: xs).reverse.reverse]) from rfl]
  rw [hne2]
  simp

theorem lexL_single (w : List Char) (hne : w ≠ [])
    (h : ∀ ch ∈ w, isWs ch = false ∧ isParen ch = false) :
    lexL w = [classify w] := by
  unfold lexL
  rw [splitWs_nows w [] (fun ch hch => (h ch hch).1), List.append_nil]
  obtain ⟨x, xs, rfl⟩ := List.exists_cons_of_ne_nil hne
  have hne2 : ((x :: xs).reverse).isEmpty = false := by
    simp [List.isEmpty_iff]
  rw [show splitWsAux (x :: xs).reverse [] =
    (if ((x :: xs).reverse).isEmpty then [] else [(x :: xs).reverse.reverse]) from rfl]
  rw [hne2]
  simp only [if_neg (by simp : ¬ (false = true)), List.reverse_reverse]
  rw [show sepWords [x :: xs] = separate (x :: xs) ++ sepWords [] from rfl]
  rw [separate_noparen (x :: xs) (by simp) (fun ch hch => (h ch hch).2)]
  rfl

theorem digitVal_digitChar (n : Nat) (h : n < 10) : digitVal (digitChar n) = n := by
  interval_cases n <;> decide

theorem isDigitChar_digitChar (n : Nat) (h : n < 10) : isDigitChar (digitChar n) = true := by
  interval_cases n <;> decide

theorem natOfDigits_append (ds : List Char) (c : Char) :
    natOfDigits (ds ++ [c]) = natOfDigits ds * 10 + digitVal c := by
  unfold natOfDigits
  rw [List.foldl_append]
  rfl

theorem natOfDigits_natDigitsF : ∀ (f n : Nat), n < f →
    natOfDigits (natDigitsF f n) = n := by
  intro f
  induction f with
  | zero =>
    intro n h
    exact absurd h (by omega)
  | succ f ih =>
    intro n hf
    by_cases h10 : n < 10
    · simp only [natDigitsF, if_pos h10]
      simp [natOfDigits, digitVal_digitChar n h10]
    · simp only [natDigitsF, if_neg h10]
      rw [natOfDigits_append, ih (n / 10) (by omega), digitVal_digitChar (n % 10) (by omega)]
      omega

theorem natDigitsF_ne_nil : ∀ (f n : Nat), n < f → natDigitsF f n ≠ [] := by
  intro f
  induction f with
  | zero =>
    intro n h
    exact absurd h (by omega)
  | succ f _ =>
    intro n _
    by_cases h10 : n < 10
    · simp [natDigitsF, h10]
    · simp [natDigitsF, h10]

theorem natDigitsF_digits : ∀ (f n : Nat), n < f →
    ∀ c ∈ natDigitsF f n, isDigitChar c = true := by
  intro f
  induction f with
  | zero =>
    intro n h
    exact absurd h (by omega)
  | succ f ih =>
    intro n hf c hc
    by_cases h10 : n < 10
    · simp only [natDigitsF, if_pos h10, List.mem_singleton] at hc
      subst hc
      exact isDigitChar_digitChar n h10
    · simp only [natDigitsF, if_neg h10] at hc
      rcases List.mem_append.mp hc with h1 | h1
      · exact ih (n / 10) (by omega) c h1
      · simp only [List.mem_singleton] at h1
        subst h1
        exact isDigitChar_digitChar (n % 10) (by omega)

theorem digit_not_special (c : Char) (h : isDigitChar c = true) :
    isWs c = false ∧ isParen c = false ∧ c ≠ '+' := by
  simp only [isDigitChar, Bool.and_eq_true, decide_eq_true_eq] at h
  obtain ⟨h1, h2⟩ := h
  refine ⟨?_, ?_, ?_⟩
  · cases hw : isWs c with
    | false => rfl
    | true =>
      exfalso
      simp only [isWs, Bool.or_eq_true, Bool.and_eq_true, decide_eq_true_eq] at hw
      omega
  · cases hw : isParen c with
    | false => rfl
    | true =>
      simp only [isParen, Bool.or_eq_true, decide_eq_true_eq] at hw
      rcases hw with rfl | rfl <;> exact absurd h1 (by decide)
  · intro he
    subst he
    exact absurd h1 (by decide)

theorem natDigits_ne_nil (n : Nat) : natDigits n ≠ [] :=
  natDigitsF_ne_nil (n + 1) n (by omega)

theorem natDigits_digits (n : Nat) : ∀ c ∈ natDigits n, isDigitChar c = true :=
  natDigitsF_digits (n + 1) n (by omega)

theorem natOfDigits_natDigits (n : Nat) : natOfDigits (natDigits n) = n :=
  natOfDigits_natDigitsF (n + 1) n (by omega)

theorem parseU64_natDigits (n : Nat) (hn : n < W) : parseU64 (natDigits n) = some n := by
  cases hd : natDigits n with
  | nil => exact absurd hd (natDigits_ne_nil n)
  | cons c rest =>
    have hc : isDigitChar c = true := by
      apply natDigits_digits n
      rw [hd]
      exact List.mem_cons_self c rest
    have hplus : c ≠ '+' := (digit_not_special c hc).2.2
    have hall : (c :: rest).all isDigitChar = true := by
      rw [List.all_eq_true]
      intro x hx
      apply natDigits_digits n
      rw [hd]
      exact hx
    have hval : natOfDigits (c :: rest) = n := by
      rw [← hd]
      exact natOfDigits_natDigits n
    have e1 : parseU64 (c :: rest) = parseU64Digits (c :: rest) := by
      simp [parseU64, hplus]
    rw [e1]
    unfold parseU64Digits
    simp [hall, hval, hn]

theorem classify_natDigits (n : Nat) (hn : n < W) : classify (natDigits n) = .number n := by
  have hne : natDigits n ≠ ['('] := by
    intro he
    exact absurd (natDigits_digits n '(' (by rw [he]; simp)) (by decide)
  have hne2 : natDigits n ≠ [')'] := by
    intro he
    exact absurd (natDigits_digits n ')' (by rw [he]; simp)) (by decide)
  unfold classify
  rw [if_neg hne, if_neg hne2, parseU64_natDigits n hn]

theorem classify_wfSym (s : String) (h : wfSym s = true) : classify s.data = .symbol s := by
  simp only [wfSym, Bool.and_eq_true] at h
  obtain ⟨ht, hp⟩ := h
  simp only [wfText, Bool.and_eq_true] at ht
  obtain ⟨hne, hall⟩ := ht
  have hnp : s.data ≠ ['('] := by
    intro he
    have h1 := List.all_eq_true.mp hall '(' (by rw [he]; simp)
    simp [isParen] at h1
  have hnp2 : s.data ≠ [')'] := by
    intro he
    have h1 := List.all_eq_true.mp hall ')' (by rw [he]; simp)
    simp [isParen] at h1
  unfold classify
  rw [if_neg hnp, if_neg hnp2]
  rw [show parseU64 s.data = none from Option.isNone_iff_eq_none.mp hp]

theorem lexL_tokText (t : Token) (h : wfTok t = true) : lexL (tokText t) = [t] := by
  cases t with
  | leftParen => decide
  | rightParen => decide
  | number n =>
    have hn : n < W := by simpa [wfTok] using h
    have hchars : ∀ c ∈ natDigits n, isWs c = false ∧ isParen c = false := by
      intro c hc
      have h2 := digit_not_special c (natDigits_digits n c hc)
      exact ⟨h2.1, h2.2.1⟩
    show lexL (natDigits n) = [Token.number n]
    rw [lexL_single (natDigits n) (natDigits_ne_nil n) hchars, classify_natDigits n hn]
  | symbol s =>
    have hs : wfSym s = true := by simpa [wfTok] using h
    have hs' := hs
    simp only [wfSym, Bool.and_eq_true] at hs'
    obtain ⟨ht, _⟩ := hs'
    simp only [wfText, Bool.and_eq_true] at ht
    obtain ⟨hne, hall⟩ := ht
    have hne' : s.data ≠ [] := by
      simpa [List.isEmpty_iff] using hne
    have hchars : ∀ c ∈ s.data, isWs c = false ∧ isParen c = false := by
      intro c hc
      have h1 := List.all_eq_true.mp hall c hc
      simp only [Bool.and_eq_true, Bool.not_eq_true'] at h1
      exact ⟨h1.1.1, h1.1.2⟩
    show lexL s.data = [Token.symbol s]
    rw [lexL_single s.data hne' hchars, classify_wfSym s hs]

theorem lexL_renderToks : ∀ (ts : List Token), (∀ t ∈ ts, wfTok t = true) →
    lexL (renderToks ts) = ts := by
  intro ts
  induction ts with
  | nil =>
    intro _
    rfl
  | cons t rest ih =>
    intro hwf
    cases rest with
    | nil =>
      have e : renderToks [t] = tokText t := rfl
      rw [e, lexL_tokText t (hwf t (List.mem_cons_self t []))]
    | cons t2 r2 =>
      have e : renderToks (t :: t2 :: r2) = tokText t ++ ' ' :: renderToks (t2 :: r2) := rfl
      rw [e, lexL_ws_insert ' ' (by decide), lexL_tokText t (hwf t (List.mem_cons_self _ _)),
        ih (fun x hx => hwf x (List.mem_cons_of_mem t hx))]
      rfl

theorem toksN_ne_nil (node : Node) : toksN node ≠ [] := by
  cases node <;> simp [toksN]

theorem toksN_head_ne_rp (node : Node) (t : Token) (tr : List Token)
    (h : toksN node = t :: tr) : t ≠ Token.rightParen := by
  cases node with
  | symbol s =>
    simp only [toksN] at h
    injection h with h1 _
    subst h1
    simp
  | number n =>
    simp only [toksN] at h
    injection h with h1 _
    subst h1
    simp
  | application name args =>
    simp only [toksN] at h
    injection h with h1 _
    subst h1
    simp

theorem toksN_len_pos (node : Node) : 1 ≤ (toksN node).length := by
  cases node <;> simp [toksN]

theorem toksL_mem_le {args : List Node} {a : Node} (ha : a ∈ args) :
    (toksN a).length ≤ (toksL args).length := by
  induction args with
  | nil => cases ha
  | cons b bs ih =>
    rcases List.mem_cons.mp ha with rfl | hm
    · simp [toksL]
    · have := ih hm
      simp only [toksL, List.length_append]
      omega

theorem args_le_toksL (args : List Node) : args.length ≤ (toksL args).length := by
  induction args with
  | nil => simp [toksL]
  | cons b bs ih =>
    have := toksN_len_pos b
    simp only [toksL, List.length_append, List.length_cons]
    omega

theorem toksL_mem {args : List Node} {t : Token} (h : t ∈ toksL args) :
    ∃ a ∈ args, t ∈ toksN a := by
  induction args with
  | nil => simp [toksL] at h
  | cons b bs ih =>
    simp only [toksL] at h
    rcases List.mem_append.mp h with h1 | h1
    · exact ⟨b, List.mem_cons_self b bs, h1⟩
    · obtain ⟨a, ha, hta⟩ := ih h1
      exact ⟨a, List.mem_cons_of_mem b ha, hta⟩

theorem sizeN_pos (node : Node) : 1 ≤ sizeN node := by
  cases node <;> simp [sizeN]

theorem wfL_mem {as : List Node} (h : wfL as = true) {a : Node} (ha : a ∈ as) :
    wfN a = true := by
  induction as with
  | nil => cases ha
  | cons b bs ih =>
    simp only [wfL, Bool.and_eq_true] at h
    rcases List.mem_cons.mp ha with rfl | hm
    · exact h.1
    · exact ih h.2 hm

theorem parseArgs_toks (f : Nat) :
    ∀ (args : List Node) (rest : List Token) (fuel : Nat),
    (∀ a ∈ args, ∀ r : List Token, parseExp1 (toksN a ++ r) = .ok (r, a)) →
    (toksL args ++ Token.rightParen :: rest).length < f →
    args.length < fuel →
    parseArgsF fuel (parseExpF f) (toksL args ++ Token.rightParen :: rest) =
      .ok (rest, args) := by
  intro args
  induction args with
  | nil =>
    intro rest fuel _ _ hfuel
    obtain ⟨g, rfl⟩ : ∃ g, fuel = g + 1 := ⟨fuel - 1, by omega⟩
    rfl
  | cons a as ih =>
    intro rest fuel hrt hf hfuel
    obtain ⟨g, rfl⟩ : ∃ g, fuel = g + 1 := ⟨fuel - 1, by omega⟩
    have e0 : toksL (a :: as) ++ Token.rightParen :: rest =
        toksN a ++ (toksL as ++ Token.rightParen :: rest) := by
      simp [toksL]
    rw [e0] at hf ⊢
    cases htn : toksN a with
    | nil => exact absurd htn (toksN_ne_nil a)
    | cons t tr =>
      have hne : t ≠ Token.rightParen := toksN_head_ne_rp a t tr htn
      rw [List.cons_append,
        parseArgsF_cons_eq g (parseExpF f) t
          (tr ++ (toksL as ++ Token.rightParen :: rest)) hne]
      have hex : parseExpF f (t :: (tr ++ (toksL as ++ Token.rightParen :: rest))) =
          .ok (toksL as ++ Token.rightParen :: rest, a) := by
        have hlen : (t :: (tr ++ (toksL as ++ Token.rightParen :: rest))).length < f := by
          rw [htn, List.cons_append] at hf
          exact hf
        rw [parseExpF_stable f _ hlen]
        have h3 := hrt a (List.mem_cons_self a as) (toksL as ++ Token.rightParen :: rest)
        rw [htn, List.cons_append] at h3
        exact h3
      simp only [hex, pseq_ok]
      have hih := ih rest g (fun b hb r => hrt b (List.mem_cons_of_mem a hb) r)
        (by
          rw [htn, List.cons_append] at hf
          simp only [List.length_cons, List.length_append] at hf ⊢
          omega)
        (by simp only [List.length_cons] at hfuel; omega)
      simp only [hih, pseq_ok]

theorem parseExp1_toks :
    ∀ (N : Nat) (node : Node), (toksN node).length ≤ N →
    ∀ rest : List Token, parseExp1 (toksN node ++ rest) = .ok (rest, node) := by
  intro N
  induction N with
  | zero =>
    intro node h
    have := toksN_len_pos node
    exact absurd h (by omega)
  | succ N ih =>
    intro node hN rest
    cases node with
    | symbol s => rfl
    | number n => rfl
    | application name args =>
      have e0 : toksN (Node.application name args) ++ rest =
          Token.leftParen :: Token.symbol name ::
            (toksL args ++ Token.rightParen :: rest) := by
        simp [toksN]
      rw [e0]
      unfold parseExp1
      rw [parseExpF_lp
        ((Token.leftParen :: Token.symbol name ::
          (toksL args ++ Token.rightParen :: rest)).length)
        name (toksL args ++ Token.rightParen :: rest)
        (by simp only [List.length_append, List.length_cons]; omega)]
      have hargs := parseArgs_toks
        ((Token.leftParen :: Token.symbol name ::
          (toksL args ++ Token.rightParen :: rest)).length)
        args rest ((toksL args ++ Token.rightParen :: rest).length + 1)
        (fun a ha r => ih a (by
          have h1 := toksL_mem_le ha
          simp only [toksN, List.length_cons, List.length_append] at hN
          omega) r)
        (by simp only [List.length_cons]; omega)
        (by
          have h2 := args_le_toksL args
          simp only [List.length_append, List.length_cons]
          omega)
      simp only [hargs, pseq_ok]

theorem parse_toksL : ∀ roots : List Node, parse (toksL roots) = .ok roots := by
  intro roots
  induction roots with
  | nil => rfl
  | cons r rs ih =>
    cases htn : toksN r with
    | nil => exact absurd htn (toksN_ne_nil r)
    | cons t tr =>
      have e1 : toksL (r :: rs) = t :: (tr ++ toksL rs) := by
        show toksN r ++ toksL rs = _
        rw [htn, List.cons_append]
      unfold parse
      rw [e1]
      simp only [parseRootsF]
      have hexp : parseExp1 (t :: (tr ++ toksL rs)) = .ok (toksL rs, r) := by
        have h3 := parseExp1_toks (toksN r).length r le_rfl (toksL rs)
        rw [htn, List.cons_append] at h3
        exact h3
      simp only [hexp, pseq_ok]
      have hstab : parseRootsF (t :: (tr ++ toksL rs)).length (toksL rs) =
          parse (toksL rs) := by
        apply parseRootsF_stable
        simp only [List.length_cons, List.length_append]
        omega
      rw [hstab, ih]
      rfl

theorem wfN_toks : ∀ (N : Nat) (node : Node), sizeN node ≤ N → wfN node = true →
    ∀ t ∈ toksN node, wfTok t = true := by
  intro N
  induction N with
  | zero =>
    intro node h
    have := sizeN_pos node
    exact absurd h (by omega)
  | succ N ih =>
    intro node hN hwf t ht
    cases node with
    | symbol s =>
      simp only [toksN, List.mem_singleton] at ht
      subst ht
      simp only [wfN] at hwf
      simpa [wfTok] using hwf
    | number n =>
      simp only [toksN, List.mem_singleton] at ht
      subst ht
      simp only [wfN] at hwf
      simpa [wfTok] using hwf
    | application name args =>
      simp only [wfN, Bool.and_eq_true] at hwf
      obtain ⟨hname, hargs⟩ := hwf
      simp only [toksN] at ht
      rcases List.mem_cons.mp ht with rfl | ht2
      · rfl
      rcases List.mem_cons.mp ht2 with rfl | ht3
      · simpa [wfTok] using hname
      rcases List.mem_append.mp ht3 with ht4 | ht4
      · obtain ⟨a, ha, hta⟩ := toksL_mem ht4
        refine ih a ?_ (wfL_mem hargs ha) t hta
        have h1 := sizeL_mem ha
        simp only [sizeN] at hN
        omega
      · simp only [List.mem_singleton] at ht4
        subst ht4
        rfl

theorem wfL_toks {roots : List Node} (h : wfL roots = true) :
    ∀ t ∈ toksL roots, wfTok t = true := by
  intro t ht
  obtain ⟨a, ha, hta⟩ := toksL_mem ht
  exact wfN_toks (sizeN a) a le_rfl (wfL_mem h ha) t hta

theorem render_roundTrip (roots : List Node) (h : wfL roots = true) :
    parse (lexL (render roots)) = .ok roots := by
  unfold render
  rw [lexL_renderToks (toksL roots) (wfL_toks h), parse_toksL]

theorem takeBytes_cons (k : Nat) (c : Char) (cs : List Char) :
    takeBytes (k + 1) (c :: cs) =
      (if c.utf8Size ≤ k + 1 then
        match takeBytes (k + 1 - c.utf8Size) cs with
        | some r => some (c :: r)
        | none => none
       else none) := rfl

theorem takeBytes_ascii : ∀ (w : List Char), (∀ c ∈ w, c.utf8Size = 1) →
    takeBytes w.length w = some w := by
  intro w
  induction w with
  | nil =>
    intro _
    rfl
  | cons c cs ih =>
    intro h
    have hc : c.utf8Size = 1 := h c (List.mem_cons_self c cs)
    rw [List.length_cons, takeBytes_cons cs.length c cs, hc, if_pos (by omega)]
    rw [show cs.length + 1 - 1 = cs.length from by omega]
    simp only [ih (fun d hd => h d (List.mem_cons_of_mem c hd))]

theorem flushRun_ascii (acc : List Char) (h : ∀ c ∈ acc, c.utf8Size = 1) :
    flushRun acc = some acc.reverse := by
  unfold flushRun
  rw [show acc.length = acc.reverse.length from by rw [List.length_reverse]]
  exact takeBytes_ascii acc.reverse (fun c hc => h c (List.mem_reverse.mp hc))

theorem sepAuxB_ascii : ∀ (cs acc : List Char), (∀ c ∈ cs, c.utf8Size = 1) →
    (∀ c ∈ acc, c.utf8Size = 1) → sepAuxB acc cs = some (sepAux acc cs) := by
  intro cs
  induction cs with
  | nil =>
    intro acc _ hacc
    by_cases he : acc.isEmpty = true
    · simp [sepAuxB, sepAux, he]
    · simp only [sepAuxB, sepAux, if_neg he]
      rw [flushRun_ascii acc hacc]
  | cons c cs' ih =>
    intro acc hcs hacc
    have hcs' : ∀ d ∈ cs', d.utf8Size = 1 := fun d hd => hcs d (List.mem_cons_of_mem c hd)
    by_cases hp : isParen c = true
    · simp only [sepAuxB, sepAux, if_pos hp]
      by_cases he : acc.isEmpty = true
      · rw [if_pos he, if_pos he, ih [] hcs' (by simp)]
        simp
      · rw [if_neg he, if_neg he, flushRun_ascii acc hacc, ih [] hcs' (by simp)]
        simp
    · simp only [sepAuxB, sepAux, if_neg hp]
      exact ih (c :: acc) hcs' (by
        intro d hd
        rcases List.mem_cons.mp hd with rfl | hd2
        · exact hcs d (List.mem_cons_self _ _)
        · exact hacc d hd2)

theorem lexWordsB_ascii : ∀ (ws : List (List Char)),
    (∀ w ∈ ws, ∀ c ∈ w, c.utf8Size = 1) →
    lexWordsB ws = some (sepWords ws) := by
  intro ws
  induction ws with
  | nil =>
    intro _
    rfl
  | cons w ws' ih =>
    intro h
    have h1 : separateB w = some (separate w) :=
      sepAuxB_ascii w [] (h w (List.mem_cons_self _ _)) (by simp)
    simp only [lexWordsB, sepWords, h1, ih (fun v hv => h v (List.mem_cons_of_mem w hv))]

theorem splitWs_chars : ∀ (cs p w : List Char), w ∈ splitWsAux p cs →
    ∀ c ∈ w, c ∈ p ∨ c ∈ cs := by
  intro cs
  induction cs with
  | nil =>
    intro p w hw c hc
    by_cases he : p.isEmpty = true
    · simp [splitWsAux, he] at hw
    · simp only [splitWsAux, if_neg he, List.mem_singleton] at hw
      subst hw
      exact Or.inl (List.mem_reverse.mp hc)
  | cons d cs' ih =>
    intro p w hw c hc
    by_cases hd : isWs d = true
    · rw [show splitWsAux p (d :: cs') =
        (if p.isEmpty then [] else [p.reverse]) ++ splitWsAux [] cs' from by
          simp [splitWsAux, hd]] at hw
      rcases List.mem_append.mp hw with h1 | h1
      · by_cases he : p.isEmpty = true
        · simp [he] at h1
        · simp only [if_neg he, List.mem_singleton] at h1
          subst h1
          exact Or.inl (List.mem_reverse.mp hc)
      · rcases ih [] w h1 c hc with h2 | h2
        · exact absurd h2 (List.not_mem_nil c)
        · exact Or.inr (List.mem_cons_of_mem d h2)
    · rw [show splitWsAux p (d :: cs') = splitWsAux (d :: p) cs' from by
        simp [splitWsAux, hd]] at hw
      rcases ih (d :: p) w hw c hc with h2 | h2
      · rcases List.mem_cons.mp h2 with rfl | h3
        · exact Or.inr (List.mem_cons_self _ _)
        · exact Or.inl h3
      · exact Or.inr (List.mem_cons_of_mem d h2)

theorem lexB_ascii (cs : List Char) (h : ∀ c ∈ cs, c.utf8Size = 1) :
    lexB cs = some (lexL cs) := by
  have hw : ∀ w ∈ splitWsAux [] cs, ∀ c ∈ w, c.utf8Size = 1 := by
    intro w hwmem c hc
    rcases splitWs_chars cs [] w hwmem c hc with h1 | h1
    · exact absurd h1 (List.not_mem_nil c)
    · exact h c h1
  unfold lexB lexL
  rw [lexWordsB_ascii (splitWsAux [] cs) hw]

theorem joinSp_chars : ∀ (ws : List (List Char)) (c : Char), c ∈ joinSp ws →
    (∃ w ∈ ws, c ∈ w) ∨ c = ' ' := by
  intro ws
  induction ws with
  | nil =>
    intro c hc
    exact absurd hc (List.not_mem_nil c)
  | cons w ws' ih =>
    intro c hc
    cases ws' with
    | nil => exact Or.inl ⟨w, List.mem_cons_self _ _, hc⟩
    | cons w2 ws2 =>
      rw [show joinSp (w :: w2 :: ws2) = w ++ ' ' :: joinSp (w2 :: ws2) from rfl] at hc
      rcases List.mem_append.mp hc with h1 | h1
      · exact Or.inl ⟨w, List.mem_cons_self _ _, h1⟩
      · rcases List.mem_cons.mp h1 with rfl | h2
        · exact Or.inr rfl
        · rcases ih c h2 with ⟨v, hv, hcv⟩ | h3
          · exact Or.inl ⟨v, List.mem_cons_of_mem w hv, hcv⟩
          · exact Or.inr h3

theorem digitChar_size (k : Nat) : (digitChar k).utf8Size = 1 := by
  unfold digitChar
  split <;> decide

theorem natDigitsF_size : ∀ (f n : Nat), ∀ c ∈ natDigitsF f n, c.utf8Size = 1 := by
  intro f
  induction f with
  | zero =>
    intro n c hc
    exact absurd hc (List.not_mem_nil c)
  | succ f ih =>
    intro n c hc
    by_cases h10 : n < 10
    · simp only [natDigitsF, if_pos h10, List.mem_singleton] at hc
      subst hc
      exact digitChar_size n
    · simp only [natDigitsF, if_neg h10] at hc
      rcases List.mem_append.mp hc with h1 | h1
      · exact ih (n / 10) c h1
      · simp only [List.mem_singleton] at h1
        subst h1
        exact digitChar_size (n % 10)

theorem tokText_size_one (t : Token) (h : wfTok t = true) :
    ∀ c ∈ tokText t, c.utf8Size = 1 := by
  cases t with
  | leftParen =>
    intro c hc
    simp only [tokText, List.mem_singleton] at hc
    subst hc
    decide
  | rightParen =>
    intro c hc
    simp only [tokText, List.mem_singleton] at hc
    subst hc
    decide
  | number n =>
    intro c hc
    exact natDigitsF_size (n + 1) n c hc
  | symbol s =>
    intro c hc
    have hs : wfSym s = true := by simpa [wfTok] using h
    simp only [wfSym, Bool.and_eq_true] at hs
    obtain ⟨ht, _⟩ := hs
    simp only [wfText, Bool.and_eq_true] at ht
    have h1 := List.all_eq_true.mp ht.2 c hc
    simp only [Bool.and_eq_true, decide_eq_true_eq] at h1
    exact h1.2

theorem render_size_one (roots : List Node) (h : wfL roots = true) :
    ∀ c ∈ render roots, c.utf8Size = 1 := by
  intro c hc
  unfold render renderToks at hc
  rcases joinSp_chars ((toksL roots).map tokText) c hc with ⟨w, hw, hcw⟩ | rfl
  · obtain ⟨t, ht, rfl⟩ := List.mem_map.mp hw
    exact tokText_size_one t (wfL_toks h t ht) c hcw
  · decide

/-- C1: evaluating an application of `-` folds wrapping u64 subtraction
over the left-to-right evaluated arguments starting from the seed 0, so
the result is (0 − arg0 − arg1 − …) mod 2^64; in particular `(- 5)`
evaluates to 2^64 − 5 (the underflow wrap) rather than a negation or a
failure. -/
theorem claim_c1_minus_fold :
    (∀ (f : Nat) (args : List Node) (env : Env) (vs : List Nat) (env2 : Env),
      evalArgs (eval f) args env = .ok (vs, env2) →
      eval (f+1) (.application "-" args) env =
        .ok ((((0 : Int) - (vs.sum : Int)) % (2 ^ 64 : Int)).toNat, env2)) ∧
    runProg 3 "(- 5)" = .ok (2 ^ 64 - 5) :=
  ⟨eval_sub, by decide⟩

/-- C1 witness: the fold statement applied at the single argument 5. -/
theorem claim_c1_minus_fold_witness :
    eval 2 (.application "-" [.number 5]) [] =
      .ok ((((0 : Int) - (([5] : List Nat).sum : Int)) % (2 ^ 64 : Int)).toNat, []) :=
  claim_c1_minus_fold.1 1 [.number 5] [] [5] [] rfl

/-- C2 counterexample: evaluation can diverge.  The root `x` under the
environment binding `x` to the node `x` itself recurses forever (fuel
exhaustion at every recursion depth), and the whole program
`(define x x) x` reaches exactly that state, so the claim that every
evaluate-one-root call runs to completion or raises a fatal failure is
false. -/
theorem claim_c2_counterexample :
    evalDiverges (.symbol "x") [("x", .symbol "x")] ∧
    progDiverges "(define x x) x" :=
  ⟨evalDiverges_selfref, progDiverges_selfref⟩

/-- C2 (amended): a call to evaluate-one-root either runs to completion,
raises a fatal failure, or recurses without bound through cyclic symbol
bindings; for every root containing no Symbol node the recursion is
bounded by the node count, so such a root always runs to completion or
raises a fatal failure. -/
theorem claim_c2_no_timeout (fuel : Nat) (root : Node) (env : Env)
    (h1 : symFreeN root = true) (h2 : sizeN root < fuel) :
    eval fuel root env ≠ .timeout :=
  eval_symfree_no_timeout fuel root env h1 h2

/-- C2 witness: the amended statement applied at the literal 5. -/
theorem claim_c2_no_timeout_witness :
    symFreeN (.number 5) = true ∧ sizeN (.number 5) < 2 ∧
    eval 2 (.number 5) [] ≠ .timeout :=
  ⟨by decide, by decide, claim_c2_no_timeout 2 (.number 5) [] (by decide) (by decide)⟩

/-- C3: `define` with a symbol first argument and a second argument node
binds the name to the unevaluated second node (even recursion fuel 0 for
subcalls suffices) and returns 0; with fewer than two argument nodes or
a non-symbol first argument it is a fatal failure; and a later insert
for the same name shadows the earlier one on lookup. -/
theorem claim_c3_define :
    (∀ (f : Nat) (env : Env) (s : String) (v : Node) (rest : List Node),
      eval (f+1) (.application "define" (.symbol s :: v :: rest)) env =
        .ok (0, envInsert env s v)) ∧
    (∀ (f : Nat) (env : Env) (args : List Node),
      args.length < 2 ∨ headIsSymbol args = false →
      eval (f+1) (.application "define" args) env = .fatal) ∧
    (∀ (env : Env) (s : String) (v1 v2 : Node),
      envFind (envInsert (envInsert env s v1) s v2) s = some v2) := by
  refine ⟨eval_define_ok, eval_define_fatal, ?_⟩
  intro env s v1 v2
  simp [envInsert, envFind]

/-- C3 witness: define at concrete inputs, including the fatal case of
an empty argument list. -/
theorem claim_c3_define_witness :
    eval 1 (.application "define" [.symbol "x", .number 5]) [] =
      .ok (0, envInsert [] "x" (.number 5)) ∧
    (([] : List Node).length < 2 ∨ headIsSymbol [] = false) ∧
    eval 1 (.application "define" []) [] = .fatal :=
  ⟨claim_c3_define.1 0 [] "x" (.number 5) [],
   Or.inl (by decide),
   claim_c3_define.2.1 0 [] [] (Or.inl (by decide))⟩

/-- C4: `/` with zero arguments is a fatal failure; with at least one
argument the first evaluated value seeds the accumulator and each
further evaluated argument divides it left to right (integer division);
a zero divisor anywhere in the fold is a fatal failure; and concretely
`(/ 10 2)` gives 5, while `(/ 10 0)` and `(/)` are fatal. -/
theorem claim_c4_div :
    (∀ (f : Nat) (env : Env), eval (f+1) (.application "/" []) env = .fatal) ∧
    (∀ (f : Nat) (a : Node) (as : List Node) (env : Env) (v0 : Nat) (env0 : Env)
      (vs : List Nat) (env1 : Env),
      eval f a env = .ok (v0, env0) →
      evalArgs (eval f) as env0 = .ok (vs, env1) →
      0 ∉ vs →
      eval (f+1) (.application "/" (a :: as)) env =
        .ok (vs.foldl (· / ·) v0, env1)) ∧
    (∀ (f : Nat) (a : Node) (as : List Node) (env : Env) (v0 : Nat) (env0 : Env)
      (vs : List Nat) (env1 : Env),
      eval f a env = .ok (v0, env0) →
      evalArgs (eval f) as env0 = .ok (vs, env1) →
      0 ∈ vs →
      eval (f+1) (.application "/" (a :: as)) env = .fatal) ∧
    runProg 3 "(/ 10 2)" = .ok 5 ∧
    runProg 3 "(/ 10 0)" = .fatal ∧
    runProg 3 "(/)" = .fatal := by
  refine ⟨eval_div_nil, ?_, ?_, by decide, by decide, by decide⟩
  · intro f a as env v0 env0 vs env1 h1 h2 h3
    rw [eval_div_cons f a as env, h1]
    exact divFold_of_evalArgs (eval f) as v0 env0 vs env1 h2 h3
  · intro f a as env v0 env0 vs env1 h1 h2 h3
    rw [eval_div_cons f a as env, h1]
    exact divFold_zero (eval f) as v0 env0 vs env1 h2 h3

/-- C4 witness: the division fold applied at `(/ 10 2)` and the
zero-divisor case at `(/ 10 0)`, as evaluator terms. -/
theorem claim_c4_div_witness :
    eval 2 (.application "/" [.number 10, .number 2]) [] =
      .ok (([2] : List Nat).foldl (· / ·) 10, []) ∧
    eval 2 (.application "/" [.number 10, .number 0]) [] = .fatal :=
  ⟨claim_c4_div.2.1 1 (.number 10) [.number 2] [] 10 [] [2] [] rfl rfl (by decide),
   claim_c4_div.2.2.1 1 (.number 10) [.number 0] [] 10 [] [0] [] rfl rfl (by decide)⟩

/-- C5: the driver threads one environment through the roots left to
right, so the bindings produced by a prefix of the program are the
environment in which the remaining roots run, and the two-root program
`(define x 5) (+ x x)` yields the final result 10. -/
theorem claim_c5_driver :
    (∀ (fuel : Nat) (l1 : List Node) (res : Nat) (env : Env) (l2 : List Node)
      (v : Nat) (env1 : Env),
      evalProgramAux fuel res env l1 = .ok (v, env1) →
      evalProgramAux fuel res env (l1 ++ l2) = evalProgramAux fuel v env1 l2) ∧
    runProg 3 "(define x 5) (+ x x)" = .ok 10 :=
  ⟨evalProgramAux_append, by decide⟩

/-- C5 witness: the sequencing statement applied at a concrete one-root
prefix. -/
theorem claim_c5_driver_witness :
    evalProgramAux 1 0 [] ([.number 7] ++ [.number 8]) =
      evalProgramAux 1 7 [] [.number 8] :=
  claim_c5_driver.1 1 [.number 7] 0 [] [.number 8] 7 [] rfl

/-- C6: parsing one expression fails exactly in the situations the spec
lists, read recursively: the tokens are exhausted or a right paren
stands where an expression is expected (`ExpFail.noTokens`,
`ArgsFail.exhausted`, `ExpFail.unexpectedRight`), a left paren has
fewer than 3 tokens in total (`ExpFail.tooFew`), or the token following
a left paren is not a symbol (`ExpFail.badName`); failures inside the
argument positions propagate (`ExpFail.inArgs`, `ArgsFail`). -/
theorem claim_c6_parse_failure (ts : List Token) :
    parseExp1 ts = .fail ↔ ExpFail ts := by
  constructor
  · intro h
    exact (expFail_complete ts.length ts le_rfl).1 (ts.length + 1) (by omega) h
  · intro h
    exact (expFail_sound ts.length ts le_rfl).1 h (ts.length + 1) (by omega)

/-- C6 witness: the characterization applied at the token list `)`. -/
theorem claim_c6_parse_failure_witness : ExpFail [Token.rightParen] :=
  (claim_c6_parse_failure [Token.rightParen]).mp rfl

/-- C7 counterexample to totality and exact-text classification: the
byte-position cursor of `separate` (advanced once per character, used
as a byte index) makes the tokenizer panic on the one-character word
`é` (slicing 1 byte of a 2-byte character is not a char boundary), and
on `éa` it silently truncates the 3-byte run to its first 2 bytes and
emits `Symbol "é"` instead of a token holding the text `éa`. -/
theorem claim_c7_counterexample :
    lexB ['é'] = none ∧ lexB ['é', 'a'] = some [Token.symbol "é"] := by
  constructor
  · decide
  · decide

/-- C7, amended: on inputs of single-byte characters the tokenizer
returns without panicking and agrees with the single-byte model `lexL`
(for words containing multi-byte characters the byte-position cursor of
`separate` can panic or truncate, see the counterexample); in that
model `(` and `)` always become individual single-character tokens even
with no separating whitespace, whitespace only separates, and a
nonempty run of non-whitespace non-paren characters becomes exactly one
token: a `Number` when it reads as a u64 literal and otherwise a
`Symbol` holding the exact text; `(apa)` tokenizes to left paren,
symbol apa, right paren. -/
theorem claim_c7_lex (a b w : List Char) :
    ((∀ c ∈ w, c.utf8Size = 1) → lexB w = some (lexL w)) ∧
    (lexL (a ++ '(' :: b) = lexL a ++ Token.leftParen :: lexL b) ∧
    (lexL (a ++ ')' :: b) = lexL a ++ Token.rightParen :: lexL b) ∧
    (∀ c, isWs c = true → lexL (a ++ c :: b) = lexL a ++ lexL b) ∧
    (w ≠ [] → (∀ c ∈ w, isWs c = false ∧ isParen c = false) →
      lexL w = [match parseU64 w with
                | some n => Token.number n
                | none => Token.symbol ⟨w⟩]) ∧
    lexB "(apa)".data = some [.leftParen, .symbol "apa", .rightParen] := by
  refine ⟨fun h => lexB_ascii w h, ?_, ?_, ?_, ?_, by decide⟩
  · rw [lexL_paren_insert '(' (by decide) a b]
    rfl
  · rw [lexL_paren_insert ')' (by decide) a b]
    rfl
  · intro c hc
    exact lexL_ws_insert c hc a b
  · intro hne hch
    have hn1 : w ≠ ['('] := by
      intro he
      have h1 := (hch '(' (by rw [he]; simp)).2
      simp [isParen] at h1
    have hn2 : w ≠ [')'] := by
      intro he
      have h1 := (hch ')' (by rw [he]; simp)).2
      simp [isParen] at h1
    rw [lexL_single w hne hch]
    unfold classify
    rw [if_neg hn1, if_neg hn2]

/-- C7 witness: the single-byte bridge, whitespace insertion and the
maximal-run classification applied at concrete inputs. -/
theorem claim_c7_lex_witness :
    lexB ['a', 'p', 'a'] = some (lexL ['a', 'p', 'a']) ∧
    lexL (['a'] ++ ' ' :: ['b']) = lexL ['a'] ++ lexL ['b'] ∧
    lexL ['a', 'p', 'a'] = [match parseU64 ['a', 'p', 'a'] with
                           | some n => Token.number n
                           | none => Token.symbol ⟨['a', 'p', 'a']⟩] :=
  ⟨(claim_c7_lex [] [] ['a', 'p', 'a']).1 (by decide),
   (claim_c7_lex ['a'] ['b'] ['x']).2.2.2.1 ' ' (by decide),
   (claim_c7_lex [] [] ['a', 'p', 'a']).2.2.2.2.1 (by decide) (by decide)⟩

/-- C8: for every program made of well-formed applications and literals
(symbol names single-byte, whitespace- and paren-free, not reading as
u64 literals; numbers below 2^64) rendered as source text, the
byte-faithful tokenizer returns (no panic) exactly the token sequence
of the roots, and the parser consumes that whole sequence, with zero
leftover, returning the ordered root sequence. -/
theorem claim_c8_roundtrip (roots : List Node) (h : wfL roots = true) :
    lexB (render roots) = some (toksL roots) ∧
    parse (toksL roots) = .ok roots := by
  have h1 : lexB (render roots) = some (lexL (render roots)) :=
    lexB_ascii (render roots) (render_size_one roots h)
  have h2 : lexL (render roots) = toksL roots := by
    unfold render
    exact lexL_renderToks (toksL roots) (wfL_toks h)
  exact ⟨by rw [h1, h2], parse_toksL roots⟩

/-- C8 witness: the round trip applied at the one-root program
`(+ a)`. -/
theorem claim_c8_roundtrip_witness :
    wfL [Node.application "+" [Node.symbol "a"]] = true ∧
    (lexB (render [Node.application "+" [Node.symbol "a"]]) =
       some (toksL [Node.application "+" [Node.symbol "a"]]) ∧
     parse (toksL [Node.application "+" [Node.symbol "a"]]) =
       .ok [Node.application "+" [Node.symbol "a"]]) :=
  ⟨by decide, claim_c8_roundtrip [Node.application "+" [Node.symbol "a"]] (by decide)⟩

/-- C9: `+` folds wrapping u64 addition over the left-to-right evaluated
arguments from 0 and `*` folds wrapping multiplication from 1, so the
results are the sum and product of the argument values mod 2^64, with
the zero-argument calls giving the identities: `(+ 1 2 3)` is 6,
`(* 2 3 4)` is 24, `(+ )` is 0 and `(* )` is 1. -/
theorem claim_c9_add_mul :
    (∀ (f : Nat) (args : List Node) (env : Env) (vs : List Nat) (env2 : Env),
      evalArgs (eval f) args env = .ok (vs, env2) →
      eval (f+1) (.application "+" args) env = .ok (vs.sum % 2 ^ 64, env2)) ∧
    (∀ (f : Nat) (args : List Node) (env : Env) (vs : List Nat) (env2 : Env),
      evalArgs (eval f) args env = .ok (vs, env2) →
      eval (f+1) (.application "*" args) env = .ok (vs.prod % 2 ^ 64, env2)) ∧
    runProg 3 "(+ 1 2 3)" = .ok 6 ∧
    runProg 3 "(* 2 3 4)" = .ok 24 ∧
    runProg 3 "(+ )" = .ok 0 ∧
    runProg 3 "(* )" = .ok 1 := by
  refine ⟨?_, ?_, by decide, by decide, by decide, by decide⟩
  · intro f args env vs env2 h
    rw [← W_eq]
    exact eval_add f args env vs env2 h
  · intro f args env vs env2 h
    rw [← W_eq]
    exact eval_mul f args env vs env2 h

/-- C9 witness: the fold statements applied at `(+ 1 2)` and `(* 2 3)`
as evaluator terms. -/
theorem claim_c9_add_mul_witness :
    eval 2 (.application "+" [.number 1, .number 2]) [] =
      .ok (([1, 2] : List Nat).sum % 2 ^ 64, []) ∧
    eval 2 (.application "*" [.number 2, .number 3]) [] =
      .ok (([2, 3] : List Nat).prod % 2 ^ 64, []) :=
  ⟨claim_c9_add_mul.1 1 [.number 1, .number 2] [] [1, 2] [] rfl,
   claim_c9_add_mul.2.1 1 [.number 2, .number 3] [] [2, 3] [] rfl⟩

/-- C10: a program with zero roots is not an error: the empty and the
whitespace-only source lex to no tokens, no tokens parse to zero roots,
and the driver returns 0 on zero roots, so the whole pipeline yields
0. -/
theorem claim_c10_empty_program :
    lexL [] = [] ∧
    lexS " \t\n " = [] ∧
    parse [] = .ok [] ∧
    (∀ fuel : Nat, evalProgram fuel [] = .ok 0) ∧
    runProg 1 "" = .ok 0 ∧
    runProg 1 " \t\n " = .ok 0 :=
  ⟨rfl, by decide, rfl, fun _ => rfl, by decide, by decide⟩
